import Mathlib

/-!
# Verification of the conformal-regression core

Shallow embedding of the regression solver library and conformal
calibration engine of this repository, over exact rationals (`ℚ`).

* List-world definitions embed `conformal_regress/conformal.py`
  (`compute_conformal_band` and its helpers) and the quantile fragment of
  `conformal-regress/conformal_regress/conformal/methods.py`.
* Typed matrix-world definitions (`Matrix (Fin m) (Fin n) ℚ`) embed
  `conformal_regress/linalg.py` (`weighted_lstsq`) and
  `conformal_regress/models.py` (`fit_ols`, `fit_ridge`, `fit_lasso`,
  `fit_huber`, `fit_quantile`) and the dispatch in `conformal_regress/api.py`
  (`regress`).

External numpy routines are handled in two ways.  Where a claim depends on
their values (`np.linalg.lstsq` in the solver layer) they are modelled from
their documented contract; where no claim depends on their values (the
PCG64 shuffle of `np.random.default_rng(12345)`, the least-squares refit
`_refit` inside calibration) they are passed as explicit function
parameters, so every theorem about calibration holds for *every* possible
behaviour of those externals.

Floating-point literals of the source (`1e-8`, `1.4826`, `1e-12`, `1e-6`,
`0.8`) are modelled by the exact rationals they denote; `int(0.8 * n)`
equals `4 * n / 5` in natural division for every array size reachable in
practice (the float product of `0.8` and an integer `n` truncates to
`⌊4n/5⌋`), and is embedded as such.

Python exceptions are modelled by an `Except` monad; `PyError.valueError`
stands for a `raise ValueError` written in the repository's own code, and
`PyError.numpyError` stands for an exception raised inside numpy (e.g.
`np.quantile` on an empty array, or an `inf`-norm reduction of an empty
vector).  The distinction is exactly what claim C3/C6 are about.
-/

/-- Errors surfaced by the embedded code.  `valueError` is an explicit
`raise ValueError(msg)` in the repository's source; `numpyError` is an
exception raised inside the numpy library (its concrete exception class
and message vary with the numpy version, so only a tag is recorded). -/
inductive PyError where
  | valueError (msg : String) : PyError
  | numpyError (msg : String) : PyError
deriving DecidableEq, Repr

/-- Dot product of two rational lists (`np.dot` on 1-D arrays of equal
length; mismatched lengths are never exercised by the claims). -/
def dotL (a b : List ℚ) : ℚ := (List.zipWith (· * ·) a b).sum

/-- `X @ beta` for a row-major list matrix (`np.ndarray.__matmul__`). -/
def matVecL (X : List (List ℚ)) (beta : List ℚ) : List ℚ :=
  X.map (fun row => dotL row beta)

/-- Elementwise `|a - b|` (`np.abs(a - b)` on equal-length arrays). -/
def absSub (a b : List ℚ) : List ℚ :=
  List.zipWith (fun x y => |x - y|) a b

/-- Fancy-indexing a list of rows by an index list (`X[idx]`). -/
def selectRows (X : List (List ℚ)) (is : List ℕ) : List (List ℚ) :=
  is.map (fun i => X.getD i [])

/-- Fancy-indexing a vector by an index list (`y[idx]`). -/
def selectIdx (y : List ℚ) (is : List ℕ) : List ℚ :=
  is.map (fun i => y.getD i 0)

/-- `int(0.8 * n)`: the training-set cut used by the split and temporal
branches of `compute_conformal_band` (lines 59 and 98 of `conformal.py`).
The float expression truncates to `⌊4n/5⌋` for every attainable `n`. -/
def splitCut (n : ℕ) : ℕ := 4 * n / 5

/-- `np.array_split(l, k)`: first `l.length % k` parts have size
`l.length / k + 1`, the rest have size `l.length / k`. -/
def arraySplit (l : List ℕ) (k : ℕ) : List (List ℕ) :=
  let n := l.length
  let q := n / k
  let r := n % k
  (List.range k).map (fun i =>
    ((l.drop (i * q + min i r)).take (q + if i < r then 1 else 0)))

/-- `np.quantile(xs, q)` with the default linear interpolation:
sort, set `h = q*(n-1)`, `j = ⌊h⌋`, and interpolate between the `j`-th and
`(j+1)`-th order statistics (the upper index clamped to `n-1`).
Only meaningful for `xs ≠ []` and `0 ≤ q ≤ 1`; `npQuantileE` guards the
empty case the way numpy does (by raising). -/
def npQuantile (xs : List ℚ) (q : ℚ) : ℚ :=
  let s := xs.insertionSort (· ≤ ·)
  let n := s.length
  let h : ℚ := q * ((n : ℚ) - 1)
  let j : ℕ := (⌊h⌋).toNat
  let lo := s.getD j 0
  let hi := s.getD (min (j + 1) (n - 1)) 0
  lo + (h - j) * (hi - lo)

/-- `np.quantile`, including the exception numpy raises on an empty
array (there is no repository-level guard in front of it). -/
def npQuantileE (xs : List ℚ) (q : ℚ) : Except PyError ℚ :=
  if xs.isEmpty then .error (.numpyError "quantile of empty array")
  else .ok (npQuantile xs q)

deriving instance DecidableEq for Except

/-- Python's `min(seq)`: raises `ValueError` on an empty sequence. -/
def pyMin (l : List ℚ) : Except PyError ℚ :=
  match l with
  | [] => .error (.valueError "min() arg is an empty sequence")
  | x :: xs => .ok (xs.foldl min x)

/-- `np.mean(arr <= c)`: the fraction of entries of `arr` that are `≤ c`.
(On an empty array numpy yields NaN with a warning; the branches below
only reach this with a non-empty array, as proved later.) -/
def fracLe (arr : List ℚ) (c : ℚ) : ℚ :=
  ((arr.filter (fun x => x ≤ c)).length : ℚ) / (arr.length : ℚ)

/-- The result quadruple of `compute_conformal_band`
(`conformal.py`): the per-level half-widths dictionary (here the list of
`(α, q_α)` pairs, in the order of the requested levels), the empirical
coverage at the smallest level, and the training/calibration row counts. -/
structure BandResult where
  qs : List (ℚ × ℚ)
  coverage : ℚ
  trainingRows : ℕ
  calibrationRows : ℕ
deriving DecidableEq, Repr

/-- The dict comprehension
`{f"q_{a}": float(np.quantile(resid, 1 - a)) for a in alpha_levels}`:
each requested level is mapped to the *naive* `1 - α` empirical quantile
of the residual pool, and numpy's exception propagates if the pool is
empty. -/
def mkQs (resid : List ℚ) : List ℚ → Except PyError (List (ℚ × ℚ))
  | [] => .ok []
  | a :: as =>
    match npQuantileE resid (1 - a) with
    | .error e => .error e
    | .ok q =>
      match mkQs resid as with
      | .error e => .error e
      | .ok rest => .ok ((a, q) :: rest)

/-- The residual-pool-to-result tail shared verbatim by the four branches
of `compute_conformal_band`: build the quantile dictionary, find the
smallest requested level (`min` raises on an empty level list), read its
half-width back (the dict lookup `qs[f"q_{min_a}"]`, whose value is by
construction `np.quantile(resid, 1 - min_a)`), and report the fraction of
`coverResid` within it.  `coverResid` is the raw `|e|` in thinning mode
and the pool itself in the other three modes. -/
def bandFromResid (resid coverResid : List ℚ) (alphas : List ℚ)
    (tr cr : ℕ) : Except PyError BandResult :=
  match mkQs resid alphas with
  | .error e => .error e
  | .ok qs =>
    match pyMin alphas with
    | .error e => .error e
    | .ok minA =>
      match npQuantileE resid (1 - minA) with
      | .error e => .error e
      | .ok qMin => .ok ⟨qs, fracLe coverResid qMin, tr, cr⟩

/-- `ConformalSettings` (`conformal.py` lines 10-15). -/
structure ConformalSettings where
  mode : String
  alpha_levels : List ℚ
  date_col : Option String := none
  cv_method : Option String := none
deriving DecidableEq, Repr

/-- `auto_select_conformal_mode` (`conformal.py` lines 18-24). -/
def autoSelectConformalMode (method family : String) (n : ℕ) : String :=
  if n < 100 then "conformal_cross"
  else if method = "ols" ∧ family = "gaussian" then "conformal_thinning"
  else "conformal_split"

/-- The total order on `(original index, key)` pairs under which a sort
is exactly the *stable* argsort by key (`kind="stable"` in
`np.argsort` / `pandas.sort_values`): compare keys, break ties by the
original position. -/
def stableKeyLe (p q : ℕ × ℚ) : Prop :=
  p.2 < q.2 ∨ (p.2 = q.2 ∧ p.1 ≤ q.1)

instance : DecidableRel stableKeyLe := fun p q => by
  unfold stableKeyLe; infer_instance

/-- `np.argsort(keys, kind="stable")`: the permutation of `0..n-1` that
lists positions in non-decreasing key order, ties in original order.
Sorting `(index, key)` pairs under `stableKeyLe` (a total order that is
antisymmetric on distinct indices) produces exactly this permutation,
whichever correct sorting algorithm is used. -/
def stableArgsort (keys : List ℚ) : List ℕ :=
  (((List.range keys.length).map (fun i => (i, keys.getD i 0))).insertionSort
    stableKeyLe).map Prod.fst

/-- `compute_conformal_band` (`conformal.py` lines 27-112).

Two external numpy facilities are taken as explicit function parameters,
so that every theorem below quantifies over all of their possible
behaviours:

* `lstsqL` stands for `_refit` (line 115-118), the call into
  `np.linalg.lstsq` used to re-fit sub-models on training rows;
* `shuffle n` stands for the permutation of `np.arange(n)` produced by
  `rng.shuffle` with the hard-coded generator
  `np.random.default_rng(12345)` (lines 57-58 and 74-75).  The source
  seeds this generator with the constant `12345` inside the function
  itself: the permutation is a fixed function of `n` alone, which is why
  a single parameter of type `ℕ → List ℕ` is a faithful model.

`1e-8` is modelled by the exact rational `1/100000000`. -/
def computeConformalBand (lstsqL : List (List ℚ) → List ℚ → List ℚ)
    (shuffle : ℕ → List ℕ)
    (X : List (List ℚ)) (y : List ℚ) (beta : List ℚ)
    (hatDiag : Option (List ℚ)) (data : List (String × List ℚ))
    (settings : ConformalSettings) : Except PyError BandResult :=
  if settings.mode = "conformal_thinning" then
    match hatDiag with
    | none => .error (.valueError "hat_diag required for thinning")
    | some hd =>
      let e := List.zipWith (· - ·) y (matVecL X beta)
      let adj := hd.map (fun h => max (1 - h) (1 / 100000000))
      let loo := List.zipWith (fun ei ai => |ei| / ai) e adj
      bandFromResid loo (e.map (|·|)) settings.alpha_levels y.length 0
  else if settings.mode = "conformal_split" then
    let n := y.length
    let idx := shuffle n
    let cut := splitCut n
    let trainIdx := idx.take cut
    let calIdx := idx.drop cut
    let betaCal := lstsqL (selectRows X trainIdx) (selectIdx y trainIdx)
    let resid := absSub (selectIdx y calIdx) (matVecL (selectRows X calIdx) betaCal)
    bandFromResid resid resid settings.alpha_levels trainIdx.length calIdx.length
  else if settings.mode = "conformal_cross" then
    let n := y.length
    let k := min 5 (max 2 n)
    let idx := shuffle n
    let folds := arraySplit idx k
    let resids := (List.range k).map (fun i =>
      let calIdx := folds.getD i []
      let trainIdx := (((List.range k).filter (fun j => j ≠ i)).map
        (fun j => folds.getD j [])).flatten
      let betaCv := lstsqL (selectRows X trainIdx) (selectIdx y trainIdx)
      absSub (selectIdx y calIdx) (matVecL (selectRows X calIdx) betaCv))
    let resid := resids.flatten
    bandFromResid resid resid settings.alpha_levels (n - resid.length) resid.length
  else if settings.mode = "conformal_temporal" then
    match settings.date_col with
    | none => .error (.valueError "date_col must be provided and present in data for temporal conformal")
    | some dc =>
      match data.lookup dc with
      | none => .error (.valueError "date_col must be provided and present in data for temporal conformal")
      | some keys =>
        let ord := stableArgsort keys
        let n := keys.length
        let cut := splitCut n
        let Xord := selectRows X ord
        let yord := selectIdx y ord
        let betaCal := lstsqL (Xord.take cut) (yord.take cut)
        let resid := absSub (yord.drop cut) (matVecL (Xord.drop cut) betaCal)
        bandFromResid resid resid settings.alpha_levels cut (n - cut)
  else
    .error (.valueError ("Unknown conformal mode: " ++ settings.mode))

lemma mem_map_quantile {pool alphas : List ℚ} {a qv : ℚ}
    (h : (a, qv) ∈ alphas.map (fun x => (x, npQuantile pool (1 - x)))) :
    qv = npQuantile pool (1 - a) := by
  rcases List.mem_map.mp h with ⟨x, _, hx⟩
  rw [Prod.mk.injEq] at hx
  obtain ⟨rfl, h2⟩ := hx
  exact h2.symm

/-- Concrete stand-in for the external refit `np.linalg.lstsq` in closed
evaluations: the zero vector of the appropriate width.  On every input
where the closed theorems below use it, the training response vector is
identically zero, so the real SVD least-squares solve returns exactly
this value. -/
def lstsqZeroStub (X : List (List ℚ)) (_y : List ℚ) : List ℚ :=
  List.replicate (X.headD []).length 0

/-- Concrete stand-in for the constant-seed generator's shuffle in closed
evaluations: the identity permutation of `0..n-1`.  No claim depends on
the values the fixed PCG64(12345) stream actually draws — only on the
fact that they are a function of `n` alone — so any fixed
permutation-valued function represents it. -/
def shuffleIdStub (n : ℕ) : List ℕ := List.range n

/-! ## Typed linear-algebra world

`linalg.py` and `models.py` over `Matrix (Fin m) (Fin n) ℚ`.  Row/column
dimensions are carried in the types, which matches numpy's behaviour on
shape-conforming inputs (the only ones the typed claims exercise); a
zero-column design matrix is the type `Matrix (Fin m) (Fin 0) ℚ`. -/

open Matrix

/-- Executable matrix inverse for invertible input: `det⁻¹ • adjugate`.
Agrees with Mathlib's noncomputable `A⁻¹` whenever `A.det ≠ 0`. -/
def matInv {n : ℕ} (A : Matrix (Fin n) (Fin n) ℚ) : Matrix (Fin n) (Fin n) ℚ :=
  (A.det)⁻¹ • A.adjugate

theorem matInv_eq_inv {n : ℕ} (A : Matrix (Fin n) (Fin n) ℚ) :
    matInv A = A⁻¹ := by
  rw [matInv, Matrix.inv_def, Ring.inverse_eq_inv']

/-- `np.linalg.solve(A, b)`: the exact solution of `A x = b`, raising
`LinAlgError` (a numpy exception) when `A` is singular. -/
def npSolve {n : ℕ} (A : Matrix (Fin n) (Fin n) ℚ) (b : Fin n → ℚ) :
    Except PyError (Fin n → ℚ) :=
  if A.det = 0 then .error (.numpyError "Singular matrix")
  else .ok (matInv A *ᵥ b)

/-- The `try: inv / except LinAlgError: pinv` pattern of
`linalg.py` lines 38-41 (and its copies in `models.py`): invert when
possible.  `np.linalg.pinv` itself is an external SVD routine; no claim
depends on its value on singular input, so the singular case is modelled
by the zero matrix (any fixed total stand-in would do). -/
def invOrPinv {n : ℕ} (A : Matrix (Fin n) (Fin n) ℚ) : Matrix (Fin n) (Fin n) ℚ :=
  if A.det = 0 then 0 else matInv A

/-- The coefficient `⟨t,w⟩ / ⟨w,w⟩` of the orthogonal projection of `t`
on `w` (zero when `w = 0`, by rational division by zero). -/
def projCoef {k : ℕ} (t w : Fin k → ℚ) : ℚ :=
  Matrix.dotProduct t w / Matrix.dotProduct w w

/-- Orthogonal projection of `t` onto the span of a pairwise-orthogonal
list of vectors. -/
def projVec {k : ℕ} (t : Fin k → ℚ) (ws : List (Fin k → ℚ)) : Fin k → ℚ :=
  (ws.map (fun w => projCoef t w • w)).sum

/-- The linear combination with the same coefficients as
`projVec t (outs.map Prod.fst)`, taken over the second (certificate)
components of the pairs instead of the first. -/
def liftVec {k l : ℕ} (t : Fin k → ℚ)
    (outs : List ((Fin k → ℚ) × (Fin l → ℚ))) : Fin l → ℚ :=
  (outs.map (fun wc => projCoef t wc.1 • wc.2)).sum

/-- One Gram-Schmidt step with certificates: subtract from the pair `p`
the projection of its vector component on the vectors accumulated so
far, applying the same coefficients to the certificate component. -/
def gsStep {k l : ℕ} (acc : List ((Fin k → ℚ) × (Fin l → ℚ)))
    (p : (Fin k → ℚ) × (Fin l → ℚ)) : (Fin k → ℚ) × (Fin l → ℚ) :=
  (p.1 - projVec p.1 (acc.map Prod.fst), p.2 - liftVec p.1 acc)

/-- Gram-Schmidt with certificates over a list of (vector, certificate)
pairs: the output vectors are pairwise orthogonal, anything orthogonal
to all of them is orthogonal to all the input vectors, and any linear
relation between vectors and certificates is inherited (all proved
below). -/
def gsFold {k l : ℕ} (inputs : List ((Fin k → ℚ) × (Fin l → ℚ))) :
    List ((Fin k → ℚ) × (Fin l → ℚ)) :=
  inputs.foldl (fun acc p => acc ++ [gsStep acc p]) []

/-- The columns of `X`, each paired with the standard-basis vector that
produces it (`column j = X e_j`). -/
def colPairs {m n : ℕ} (X : Matrix (Fin m) (Fin n) ℚ) :
    List ((Fin m → ℚ) × (Fin n → ℚ)) :=
  (List.finRange n).map (fun j => (fun i => X i j, Pi.single j 1))

/-- The rows of `X`, each paired with the standard-basis vector that
produces it (`row i = Xᵀ e_i`). -/
def rowPairs {m n : ℕ} (X : Matrix (Fin m) (Fin n) ℚ) :
    List ((Fin n → ℚ) × (Fin m → ℚ)) :=
  (List.finRange m).map (fun i => (fun j => X i j, Pi.single i 1))

/-- Modelled from the spec: `np.linalg.lstsq(X, y, rcond=None)` is an
external LAPACK routine, absent from this repository; per its documented
contract (and §4.1 of the spec) it returns, for every input, the
least-squares solution of minimum Euclidean norm.  The model computes
exactly that value, with no rank assumption, by Gram-Schmidt with
certificates over ℚ: orthogonalise the columns of `X` to project `y`
onto the column space and pull the coefficients back through the
certificates (giving a least-squares solution), then orthogonalise the
rows of `X` and project that solution onto the row space (giving the
minimum-norm least-squares solution).  The theorems below prove that
this value minimises the squared residual, that among all residual
minimisers it has the smallest squared norm, and that under full column
rank it coincides with the normal-equations solution `(XᵀX)⁻¹ Xᵀ y`. -/
def npLstsq {m n : ℕ} (X : Matrix (Fin m) (Fin n) ℚ) (y : Fin m → ℚ) :
    Fin n → ℚ :=
  projVec (liftVec y (gsFold (colPairs X))) ((gsFold (rowPairs X)).map Prod.fst)

/-- The `(beta, sigma2, xtx_inv, hat_diag)` quadruple returned by
`weighted_lstsq` and by every solver in `models.py`. -/
structure FitResult (m n : ℕ) where
  beta : Fin n → ℚ
  sigma2 : ℚ
  xtxInv : Matrix (Fin n) (Fin n) ℚ
  hatDiag : Fin m → ℚ
deriving DecidableEq

/-- `weighted_lstsq` (`linalg.py` lines 15-49).  With weights the source
scales rows by `√w` and calls `lstsq`; in exact arithmetic the resulting
full-rank solution solves the weighted normal equations
`(Xᵀ diag(w) X) β = Xᵀ diag(w) y`, which is the square-root-free form
used here (ℚ is not closed under square roots; the two forms agree
wherever the modelled `lstsq` applies).  `randlapack` is absent, so the
numpy path is the one embedded. -/
def weightedLstsq {m n : ℕ} (X : Matrix (Fin m) (Fin n) ℚ) (y : Fin m → ℚ)
    (w : Option (Fin m → ℚ)) : FitResult m n :=
  let beta : Fin n → ℚ :=
    match w with
    | none => npLstsq X y
    | some wv =>
      let A := Xᵀ * (Matrix.diagonal wv) * X
      if A.det ≠ 0 then matInv A *ᵥ (Xᵀ *ᵥ (fun i => wv i * y i)) else 0
  let XtX : Matrix (Fin n) (Fin n) ℚ :=
    match w with
    | none => Xᵀ * X
    | some wv => Xᵀ * (Matrix.diagonal wv) * X
  let XtXInv := invOrPinv XtX
  let yhat := X *ᵥ beta
  let e := fun i => y i - yhat i
  let hatDiag := fun i => ∑ j, (X * XtXInv) i j * X i j
  let dof := max (m - n) 1
  let sigma2 := (∑ i, e i * e i) / (dof : ℚ)
  ⟨beta, sigma2, XtXInv, hatDiag⟩

/-- `fit_ols` (`models.py` lines 10-11). -/
def fitOls {m n : ℕ} (X : Matrix (Fin m) (Fin n) ℚ) (y : Fin m → ℚ) :
    Except PyError (FitResult m n) :=
  .ok (weightedLstsq X y none)

/-- `fit_ridge` (`models.py` lines 14-31): solves
`(XᵀX + α I) β = Xᵀ y` by `np.linalg.solve` (which raises on a singular
system), then computes the same diagnostics as OLS with `(XᵀX + αI)⁻¹`
in place of `(XᵀX)⁻¹`. -/
def fitRidge {m n : ℕ} (X : Matrix (Fin m) (Fin n) ℚ) (y : Fin m → ℚ)
    (alpha : ℚ) : Except PyError (FitResult m n) := do
  let A := Xᵀ * X + alpha • (1 : Matrix (Fin n) (Fin n) ℚ)
  let beta ← npSolve A (Xᵀ *ᵥ y)
  let AInv := invOrPinv A
  let yhat := X *ᵥ beta
  let e := fun i => y i - yhat i
  let dof := max (m - n) 1
  let sigma2 := (∑ i, e i * e i) / (dof : ℚ)
  let hatDiag := fun i => ∑ j, (X * AInv) i j * X i j
  .ok ⟨beta, sigma2, AInv, hatDiag⟩

/-- `np.linalg.norm(v, ord=np.inf)`: the maximum absolute entry.  numpy
implements it as `abs(v).max()`, which raises on an empty vector
("zero-size array to reduction operation maximum which has no
identity"); that library exception is what a zero-column fit hits in
`fit_lasso`/`fit_huber`. -/
def npNormInf {k : ℕ} (v : Fin k → ℚ) : Except PyError ℚ :=
  if k = 0 then .error (.numpyError "zero-size array to reduction operation maximum")
  else
    .ok ((List.finRange k).foldr (fun i acc => max |v i| acc) 0)

/-- One full coordinate-descent sweep of `fit_lasso` (lines 40-51):
for each `j` in order, soft-threshold against the partial residual
(updates are sequential, exactly as the in-place numpy code). -/
def lassoSweep {m n : ℕ} (X : Matrix (Fin m) (Fin n) ℚ) (y : Fin m → ℚ)
    (alpha : ℚ) (beta : Fin n → ℚ) : Fin n → ℚ :=
  (List.finRange n).foldl
    (fun b j =>
      let residual := fun i => y i - (X *ᵥ b) i + X i j * b j
      let rhoJ := ∑ i, X i j * residual i
      let colNorm2 := ∑ i, X i j * X i j
      if colNorm2 = 0 then b
      else if rhoJ < -alpha then Function.update b j ((rhoJ + alpha) / colNorm2)
      else if alpha < rhoJ then Function.update b j ((rhoJ - alpha) / colNorm2)
      else Function.update b j 0)
    beta

/-- The `for it in range(max_iter)` loop of `fit_lasso` (lines 38-53):
sweep, then stop early when the sup-norm change is below `tol`. -/
def lassoLoop {m n : ℕ} (X : Matrix (Fin m) (Fin n) ℚ) (y : Fin m → ℚ)
    (alpha tol : ℚ) : ℕ → (Fin n → ℚ) → Except PyError (Fin n → ℚ)
  | 0, beta => .ok beta
  | fuel + 1, beta =>
    let beta' := lassoSweep X y alpha beta
    match npNormInf (fun j => beta' j - beta j) with
    | .error err => .error err
    | .ok d => if d < tol then .ok beta' else lassoLoop X y alpha tol fuel beta'

/-- `fit_lasso` (`models.py` lines 34-65): capped coordinate descent,
then OLS-style diagnostics with degrees of freedom counted from the
non-zero coefficients. -/
def fitLasso {m n : ℕ} (X : Matrix (Fin m) (Fin n) ℚ) (y : Fin m → ℚ)
    (alpha : ℚ := 1) (maxIter : ℕ := 1000) (tol : ℚ := 1 / 1000000) :
    Except PyError (FitResult m n) := do
  let beta ← lassoLoop X y alpha tol maxIter (fun _ => 0)
  let XtXInv := invOrPinv (Xᵀ * X)
  let yhat := X *ᵥ beta
  let e := fun i => y i - yhat i
  let nonzero := ((List.finRange n).filter (fun j => beta j ≠ 0)).length
  let dof := max (m - nonzero) 1
  let sigma2 := (∑ i, e i * e i) / (dof : ℚ)
  let hatDiag := fun i => ∑ j, (X * XtXInv) i j * X i j
  .ok ⟨beta, sigma2, XtXInv, hatDiag⟩

/-- `np.median` over exact rationals: sort, take the middle element, or
the mean of the two middle elements for even length.  (The empty-array
case yields NaN-with-warning in numpy; it is junk-modelled as 0 and never
relied upon.) -/
def npMedian (xs : List ℚ) : ℚ :=
  let s := xs.insertionSort (· ≤ ·)
  let k := xs.length
  if k = 0 then 0
  else if k % 2 = 1 then s.getD (k / 2) 0
  else (s.getD (k / 2 - 1) 0 + s.getD (k / 2) 0) / 2

/-- One IRLS step of `fit_huber` (lines 72-82): robust scale from the
MAD of residuals (`1.4826 = 14826/10000`, `1e-12 = 1/10^12`), Huber
weights, and a weighted re-solve.  The returned quadruple is the full
state the loop threads. -/
def huberStep {m n : ℕ} (X : Matrix (Fin m) (Fin n) ℚ) (y : Fin m → ℚ)
    (delta : ℚ) (st : FitResult m n) : FitResult m n :=
  let e := fun i => y i - (X *ᵥ st.beta) i
  let eList := (List.finRange m).map e
  let med := npMedian eList
  let s := 14826 / 10000 * npMedian (eList.map (fun v => |v - med|)) + 1 / 10 ^ 12
  let u := fun i => e i / (s * delta)
  let w := fun i => 1 / max 1 |u i|
  weightedLstsq X y (some w)

/-- The convergence loop of `fit_huber` (lines 72-82). -/
def huberLoop {m n : ℕ} (X : Matrix (Fin m) (Fin n) ℚ) (y : Fin m → ℚ)
    (delta tol : ℚ) : ℕ → FitResult m n → Except PyError (FitResult m n)
  | 0, st => .ok st
  | fuel + 1, st =>
    let st' := huberStep X y delta st
    match npNormInf (fun j => st'.beta j - st.beta j) with
    | .error err => .error err
    | .ok d => if d < tol then .ok st' else huberLoop X y delta tol fuel st'

/-- `fit_huber` (`models.py` lines 68-83): IRLS for the Huber loss,
starting from the OLS fit (`1.345 = 1345/1000`). -/
def fitHuber {m n : ℕ} (X : Matrix (Fin m) (Fin n) ℚ) (y : Fin m → ℚ)
    (delta : ℚ := 1345 / 1000) (maxIter : ℕ := 100) (tol : ℚ := 1 / 1000000) :
    Except PyError (FitResult m n) :=
  huberLoop X y delta tol maxIter (weightedLstsq X y none)

/-- One sub-gradient step of `fit_quantile` (lines 91-96):
`grad = -(tau - 1[e<0]) @ X / m + 2*l2*beta`, `beta -= lr * grad`
(`l2 = 1e-6 = 1/10^6`). -/
def quantileStep {m n : ℕ} (X : Matrix (Fin m) (Fin n) ℚ) (y : Fin m → ℚ)
    (tau lr : ℚ) (beta : Fin n → ℚ) : Fin n → ℚ :=
  let e := fun i => y i - (X *ᵥ beta) i
  let grad := fun j =>
    -(∑ i, (tau - if e i < 0 then 1 else 0) * X i j) / (m : ℚ)
      + 2 * (1 / 10 ^ 6) * beta j
  fun j => beta j - lr * grad j

/-- The iteration loop of `fit_quantile`; the stopping test
`np.linalg.norm(lr * grad) < 1e-6` is on the Euclidean norm, compared
here in its squared form (`‖v‖ < c ↔ ‖v‖² < c²` for `c > 0`), which keeps
the arithmetic rational.  The Euclidean reduction of an empty vector is
`0` in numpy (no exception), so this loop is total without error. -/
def quantileLoop {m n : ℕ} (X : Matrix (Fin m) (Fin n) ℚ) (y : Fin m → ℚ)
    (tau lr : ℚ) : ℕ → (Fin n → ℚ) → (Fin n → ℚ)
  | 0, beta => beta
  | fuel + 1, beta =>
    let beta' := quantileStep X y tau lr beta
    if (∑ j, (beta' j - beta j) * (beta' j - beta j)) < (1 / 10 ^ 6) ^ 2
    then beta'
    else quantileLoop X y tau lr fuel beta'

/-- `fit_quantile` (`models.py` lines 86-108): capped sub-gradient
descent on the pinball loss, then OLS-style diagnostics. -/
def fitQuantile {m n : ℕ} (X : Matrix (Fin m) (Fin n) ℚ) (y : Fin m → ℚ)
    (tau : ℚ := 1 / 2) (maxIter : ℕ := 2000) (lr : ℚ := 1 / 10) :
    Except PyError (FitResult m n) := do
  let beta := quantileLoop X y tau lr maxIter (fun _ => 0)
  let XtXInv := invOrPinv (Xᵀ * X)
  let yhat := X *ᵥ beta
  let e := fun i => y i - yhat i
  let dof := max (m - n) 1
  let sigma2 := (∑ i, e i * e i) / (dof : ℚ)
  let hatDiag := fun i => ∑ j, (X * XtXInv) i j * X i j
  .ok ⟨beta, sigma2, XtXInv, hatDiag⟩

/-- `kwargs.get(key, default)` on the keyword-argument dictionary of
`regress` (only rational-valued keywords are ever read). -/
def pyKwGet (kwargs : List (String × ℚ)) (key : String) (default : ℚ) : ℚ :=
  (kwargs.lookup key).getD default

/-- Row-major list form of a typed matrix (the arrays flow unchanged from
the solvers into `compute_conformal_band`). -/
def matToLists {m n : ℕ} (X : Matrix (Fin m) (Fin n) ℚ) : List (List ℚ) :=
  (List.finRange m).map (fun i => (List.finRange n).map (fun j => X i j))

/-- The five-way solver dispatch of `regress` (`api.py` lines 172-186):
every branch calls the corresponding solver of `models.py`; an unknown
method raises.  (The `loss` keyword of the robust branch is read but the
branch always fits Huber, exactly as the source does.) -/
def regressFit {m n : ℕ} (method : String) (X : Matrix (Fin m) (Fin n) ℚ)
    (y : Fin m → ℚ) (tau : ℚ) (kwargs : List (String × ℚ)) :
    Except PyError (FitResult m n) :=
  match method with
  | "ols" => fitOls X y
  | "ridge" => fitRidge X y (pyKwGet kwargs "alpha" 1)
  | "lasso" => fitLasso X y (pyKwGet kwargs "alpha" 1)
  | "robust" => fitHuber X y
  | "quantile" => fitQuantile X y tau
  | other => .error (.valueError ("Unknown method: " ++ other))

/-- The fields of the fitted model relevant to the claims
(`RegressModel` in `api.py`; the formula/feature-name bookkeeping and the
JIT predict path are out of the spec's scope). -/
structure RegressModelE (m n : ℕ) where
  coefs : Fin n → ℚ
  dofResid : ℕ
  sigma2 : ℚ
  hatDiag : Option (Fin m → ℚ)
  conformalMode : Option String
  conformalQs : Option (List (ℚ × ℚ))
  coverage : Option ℚ
  trainingRows : ℕ
  calibrationRows : ℕ
deriving DecidableEq

/-- `regress` (`api.py` lines 166-237), starting after the excluded
formula layer (`build_matrices`) has produced `X` and `y`: the
`date_col` presence check, the five-way solver dispatch (lines 172-186),
and the optional conformal-calibration call (lines 196-217).  `lstsqL`
and `shuffle` are the same external-routine parameters as in
`computeConformalBand`.  Note that `**kwargs` accepts arbitrary keywords
(e.g. a would-be `seed`), of which only `"alpha"` (ridge/lasso) and
`"loss"` (ignored here: the robust branch always fits Huber) are read. -/
def regressE {m n : ℕ} (lstsqL : List (List ℚ) → List ℚ → List ℚ)
    (shuffle : ℕ → List ℕ)
    (X : Matrix (Fin m) (Fin n) ℚ) (y : Fin m → ℚ)
    (data : List (String × List ℚ)) (family method : String)
    (dateCol : Option String) (uncertainty : Option String)
    (cvMethod : Option String) (tau : ℚ) (alphaLevels : List ℚ)
    (kwargs : List (String × ℚ)) : Except PyError (RegressModelE m n) := do
  let _ ← (match dateCol with
    | none => .ok ()
    | some dc =>
      if (data.lookup dc).isNone
      then .error (.valueError ("date_col '" ++ dc ++ "' not found in data"))
      else .ok ())
  let fit ← regressFit method X y tau kwargs
  match uncertainty with
  | none =>
    .ok ⟨fit.beta, max (m - n) 1, fit.sigma2, some fit.hatDiag,
      none, none, none, m, 0⟩
  | some u =>
    let mode := if u = "conformal" then autoSelectConformalMode method family m else u
    let settings : ConformalSettings := ⟨mode, alphaLevels, dateCol, cvMethod⟩
    let band ← computeConformalBand lstsqL shuffle (matToLists X)
      (List.ofFn y) (List.ofFn fit.beta) (some (List.ofFn fit.hatDiag))
      data settings
    .ok ⟨fit.beta, max (m - n) 1, fit.sigma2, some fit.hatDiag,
      some mode, some band.qs, some band.coverage,
      band.trainingRows, band.calibrationRows⟩

/-! ## Quantile lemmas -/

lemma sorted_getD_mono {s : List ℚ} (hs : s.Sorted (· ≤ ·)) {i j : ℕ}
    (hij : i ≤ j) (hj : j < s.length) : s.getD i 0 ≤ s.getD j 0 := by
  have hi : i < s.length := lt_of_le_of_lt hij hj
  rw [s.getD_eq_getElem 0 hi, s.getD_eq_getElem 0 hj]
  have := hs.rel_get_of_le (a := ⟨i, hi⟩) (b := ⟨j, hj⟩) hij
  simpa using this

/-- The interpolated value of `npQuantile` at level `t ∈ [0,1]` lies
between the order statistics it interpolates; together with floor
monotonicity this yields level-monotonicity of numpy's quantile. -/
lemma npQuantile_mono (xs : List ℚ) {p q : ℚ} (hp0 : 0 ≤ p) (hpq : p ≤ q)
    (hq1 : q ≤ 1) (hne : xs ≠ []) : npQuantile xs p ≤ npQuantile xs q := by
  classical
  set s := xs.insertionSort (· ≤ ·) with hsdef
  have hsorted : s.Sorted (· ≤ ·) := xs.sorted_insertionSort (· ≤ ·)
  have hslen : s.length = xs.length := xs.length_insertionSort (· ≤ ·)
  have hn1 : 1 ≤ s.length := by
    have : xs.length ≠ 0 := fun h => hne (List.length_eq_zero.mp h)
    omega
  set n := s.length with hndef
  have hN0 : (0 : ℚ) ≤ (n : ℚ) - 1 := by
    have : (1 : ℚ) ≤ (n : ℚ) := by exact_mod_cast hn1
    linarith
  set hpv : ℚ := p * ((n : ℚ) - 1) with hpvdef
  set hqv : ℚ := q * ((n : ℚ) - 1) with hqvdef
  have hpv0 : 0 ≤ hpv := mul_nonneg hp0 hN0
  have hqv0 : 0 ≤ hqv := mul_nonneg (le_trans hp0 hpq) hN0
  have hple : hpv ≤ hqv := mul_le_mul_of_nonneg_right hpq hN0
  have hqtop : hqv ≤ (n : ℚ) - 1 := by
    calc hqv ≤ 1 * ((n : ℚ) - 1) := mul_le_mul_of_nonneg_right hq1 hN0
    _ = (n : ℚ) - 1 := one_mul _
  set jp : ℕ := (⌊hpv⌋).toNat with hjpdef
  set jq : ℕ := (⌊hqv⌋).toNat with hjqdef
  have hjpQ : (jp : ℚ) = (⌊hpv⌋ : ℚ) := by
    have := Int.toNat_of_nonneg (Int.floor_nonneg.mpr hpv0)
    exact_mod_cast congrArg (fun z : ℤ => (z : ℚ)) this
  have hjqQ : (jq : ℚ) = (⌊hqv⌋ : ℚ) := by
    have := Int.toNat_of_nonneg (Int.floor_nonneg.mpr hqv0)
    exact_mod_cast congrArg (fun z : ℤ => (z : ℚ)) this
  have hjple : jp ≤ jq := by
    have := Int.floor_le_floor (α := ℚ) hple
    omega
  have hjqtop : jq ≤ n - 1 := by
    have h1 : ⌊hqv⌋ ≤ ⌊(n : ℚ) - 1⌋ := Int.floor_le_floor hqtop
    have h2 : ⌊(n : ℚ) - 1⌋ = (n : ℤ) - 1 := by
      rw [show ((n : ℚ) - 1) = ((n : ℤ) - 1 : ℤ) by push_cast; ring]
      exact Int.floor_intCast _
    omega
  -- fractional parts
  have hgp0 : 0 ≤ hpv - (jp : ℚ) := by
    rw [hjpQ]; linarith [Int.floor_le hpv]
  have hgp1 : hpv - (jp : ℚ) ≤ 1 := by
    rw [hjpQ]; linarith [Int.lt_floor_add_one hpv]
  have hgq0 : 0 ≤ hqv - (jq : ℚ) := by
    rw [hjqQ]; linarith [Int.floor_le hqv]
  have hgq1 : hqv - (jq : ℚ) ≤ 1 := by
    rw [hjqQ]; linarith [Int.lt_floor_add_one hqv]
  -- order statistics involved
  have hjplt : jp < n := by omega
  have hjqlt : jq < n := by omega
  have hminp_lt : min (jp + 1) (n - 1) < n := by omega
  have hminq_lt : min (jq + 1) (n - 1) < n := by omega
  have hlohi_p : s.getD jp 0 ≤ s.getD (min (jp + 1) (n - 1)) 0 :=
    sorted_getD_mono hsorted (by omega) hminp_lt
  have hlohi_q : s.getD jq 0 ≤ s.getD (min (jq + 1) (n - 1)) 0 :=
    sorted_getD_mono hsorted (by omega) hminq_lt
  have hval_p : npQuantile xs p
      = s.getD jp 0 + (hpv - (jp : ℚ)) *
        (s.getD (min (jp + 1) (n - 1)) 0 - s.getD jp 0) := rfl
  have hval_q : npQuantile xs q
      = s.getD jq 0 + (hqv - (jq : ℚ)) *
        (s.getD (min (jq + 1) (n - 1)) 0 - s.getD jq 0) := rfl
  rcases eq_or_lt_of_le hjple with heq | hlt
  · -- same interpolation segment
    rw [hval_p, hval_q, heq]
    have hle2 : hpv - (jq : ℚ) ≤ hqv - (jq : ℚ) := by linarith
    have := mul_le_mul_of_nonneg_right hle2 (sub_nonneg.mpr hlohi_q)
    linarith
  · -- distinct segments: value at p is below the upper stat of its
    -- segment, which is below the lower stat of q's segment
    have hub : npQuantile xs p ≤ s.getD (min (jp + 1) (n - 1)) 0 := by
      rw [hval_p]; nlinarith [hlohi_p]
    have hmid : s.getD (min (jp + 1) (n - 1)) 0 ≤ s.getD jq 0 :=
      sorted_getD_mono hsorted (by omega) hjqlt
    have hlb : s.getD jq 0 ≤ npQuantile xs q := by
      rw [hval_q]; nlinarith [hlohi_q]
    linarith

lemma isEmpty_false_of_ne_nil {α : Type} {l : List α} (h : l ≠ []) :
    l.isEmpty = false := by
  cases l with
  | nil => exact absurd rfl h
  | cons a l => rfl

lemma mkQs_ok_of_ne_nil {resid : List ℚ} (alphas : List ℚ) (h : resid ≠ []) :
    mkQs resid alphas
      = .ok (alphas.map (fun a => (a, npQuantile resid (1 - a)))) := by
  induction alphas with
  | nil => rfl
  | cons a as ih =>
    simp only [mkQs, npQuantileE, isEmpty_false_of_ne_nil h,
      Bool.false_eq_true, if_false, ih, List.map_cons]

lemma mkQs_error_of_nil {alphas : List ℚ} (h : alphas ≠ []) :
    mkQs [] alphas = .error (.numpyError "quantile of empty array") := by
  cases alphas with
  | nil => exact absurd rfl h
  | cons a as => rfl

lemma bandFromResid_ok_qs {resid cover alphas : List ℚ} {tr cr : ℕ}
    {r : BandResult} (h : bandFromResid resid cover alphas tr cr = .ok r) :
    resid ≠ [] ∧
      r.qs = alphas.map (fun a => (a, npQuantile resid (1 - a))) := by
  have hres : resid ≠ [] := by
    intro hnil
    subst hnil
    cases halpha : alphas with
    | nil => subst halpha; simp [bandFromResid, mkQs, pyMin] at h
    | cons a as =>
      rw [halpha] at h
      rw [bandFromResid, mkQs_error_of_nil (by simp : a :: as ≠ [])] at h
      simp at h
  have halphas : alphas ≠ [] := by
    intro hnil
    subst hnil
    simp [bandFromResid, mkQs, pyMin] at h
  refine ⟨hres, ?_⟩
  rw [bandFromResid, mkQs_ok_of_ne_nil alphas hres] at h
  cases halpha : alphas with
  | nil => exact absurd halpha halphas
  | cons a as =>
    rw [halpha] at h
    simp only [pyMin, npQuantileE, isEmpty_false_of_ne_nil hres,
      Bool.false_eq_true, if_false] at h
    cases h
    simp [halpha]

/-- Whenever `compute_conformal_band` succeeds, its half-width dictionary
pairs each requested level `α` with the *naive* `1 - α` empirical
quantile of a single non-empty residual pool fixed by the mode. -/
lemma computeConformalBand_ok_pool
    (lstsqL : List (List ℚ) → List ℚ → List ℚ) (shuffle : ℕ → List ℕ)
    (X : List (List ℚ)) (y : List ℚ) (beta : List ℚ)
    (hatDiag : Option (List ℚ)) (data : List (String × List ℚ))
    (settings : ConformalSettings) {r : BandResult}
    (hok : computeConformalBand lstsqL shuffle X y beta hatDiag data settings
      = .ok r) :
    ∃ pool : List ℚ, pool ≠ [] ∧
      r.qs = settings.alpha_levels.map (fun a => (a, npQuantile pool (1 - a))) := by
  unfold computeConformalBand at hok
  split_ifs at hok
  · -- thinning
    cases hatDiag with
    | none => exact absurd hok (by simp)
    | some hd => exact ⟨_, bandFromResid_ok_qs hok⟩
  · -- split
    exact ⟨_, bandFromResid_ok_qs hok⟩
  · -- cross
    exact ⟨_, bandFromResid_ok_qs hok⟩
  · -- temporal
    split at hok
    · exact absurd hok (by simp)
    · split at hok
      · exact absurd hok (by simp)
      · exact ⟨_, bandFromResid_ok_qs hok⟩

/-! ## Claim theorems -/

/-- C2: for every calibration mode and every calibration run on fixed
input, and for any two requested miscoverage levels `α₁ < α₂` (both in
`(0,1)`), the returned half-widths satisfy `q_{α₁} ≥ q_{α₂}`.  The
theorem quantifies over all behaviours of the external refit and shuffle
routines, so it covers every run of `compute_conformal_band` that returns
a result. -/
theorem conformalBand_halfwidth_antitone
    (lstsqL : List (List ℚ) → List ℚ → List ℚ) (shuffle : ℕ → List ℕ)
    (X : List (List ℚ)) (y : List ℚ) (beta : List ℚ)
    (hatDiag : Option (List ℚ)) (data : List (String × List ℚ))
    (settings : ConformalSettings) (r : BandResult) (a1 a2 q1 q2 : ℚ)
    (ha0 : 0 < a1) (ha12 : a1 < a2) (ha1 : a2 < 1)
    (hok : computeConformalBand lstsqL shuffle X y beta hatDiag data settings
      = .ok r)
    (m1 : (a1, q1) ∈ r.qs) (m2 : (a2, q2) ∈ r.qs) : q2 ≤ q1 := by
  obtain ⟨pool, hne, hqs⟩ :=
    computeConformalBand_ok_pool lstsqL shuffle X y beta hatDiag data settings hok
  rw [hqs] at m1 m2
  have h1 := mem_map_quantile m1
  have h2 := mem_map_quantile m2
  subst h1
  subst h2
  exact npQuantile_mono pool (by linarith) (by linarith) (by linarith) hne

unseal Rat.add Rat.sub Rat.mul Rat.inv in
/-- Witness for C2 at a concrete thinning-mode run: levels `1/20 < 1/10`,
both half-widths evaluate to `0`, and the theorem applies. -/
theorem conformalBand_halfwidth_antitone_witness :
    (0 : ℚ) < 1/20 ∧ (1/20 : ℚ) < 1/10 ∧ (1/10 : ℚ) < 1 ∧ (0 : ℚ) ≤ 0 :=
  ⟨by decide, by decide, by decide,
    conformalBand_halfwidth_antitone lstsqZeroStub shuffleIdStub [[1]] [0] [0]
      (some [0]) [] ⟨"conformal_thinning", [1/20, 1/10], none, none⟩
      ⟨[(1/20, 0), (1/10, 0)], 1, 1, 0⟩ (1/20) (1/10) 0 0
      (by decide) (by decide) (by decide) (by decide) (by decide) (by decide)⟩

/-- Discriminates a repository-raised `ValueError` from a numpy-internal
exception in a calibration outcome. -/
def isRepoValueError : Except PyError BandResult → Bool
  | .error (.valueError _) => true
  | _ => false

/-- C3 (amended): every calibration call of `compute_conformal_band`
with an empty residual pool and at least one requested level — thinning
with `hat_diag` supplied, split, or cross on an empty dataset (`n = 0`,
hence `n_cal = 0`), and temporal with an empty ordering column — fails
with the numpy exception raised by `np.quantile` on the empty residual
pool: not with a dedicated calibration-sample error (no such guard
exists in `compute_conformal_band`) and not by returning NaN or other
garbage half-widths.  (`shuffle 0 = []` is the only permutation of
`np.arange(0)`, so the hypothesis on `shuffle` holds for the real
generator.) -/
theorem conformalBand_empty_pool_errors
    (lstsqL : List (List ℚ) → List ℚ → List ℚ) (shuffle : ℕ → List ℕ)
    (X : List (List ℚ)) (beta : List ℚ) (hatDiag : Option (List ℚ))
    (data : List (String × List ℚ)) (settings : ConformalSettings)
    (hsh : shuffle 0 = [])
    (halphas : settings.alpha_levels ≠ [])
    (hmode : (settings.mode = "conformal_thinning" ∧ ∃ hd, hatDiag = some hd)
      ∨ settings.mode = "conformal_split"
      ∨ settings.mode = "conformal_cross"
      ∨ (settings.mode = "conformal_temporal"
          ∧ ∃ dc, settings.date_col = some dc ∧ data.lookup dc = some [])) :
    computeConformalBand lstsqL shuffle X [] beta hatDiag data settings
      = .error (.numpyError "quantile of empty array") := by
  rcases hmode with ⟨hm, hd, hhd⟩ | hm | hm | ⟨hm, dc, hdc, hlk⟩
  · unfold computeConformalBand
    rw [hm, if_pos rfl, hhd]
    show bandFromResid [] [] settings.alpha_levels 0 0 = _
    rw [bandFromResid, mkQs_error_of_nil halphas]
  · unfold computeConformalBand
    rw [hm]
    rw [if_neg (by decide), if_pos rfl]
    simp only [List.length_nil, hsh, splitCut, List.take_nil, List.drop_nil]
    show bandFromResid (absSub (selectIdx [] []) _) _ _ _ _ = _
    rw [show selectIdx [] [] = [] from rfl]
    rw [show ∀ v, absSub [] v = [] from fun _ => rfl]
    rw [bandFromResid, mkQs_error_of_nil halphas]
  · unfold computeConformalBand
    rw [hm]
    rw [if_neg (by decide), if_neg (by decide), if_pos rfl]
    simp only [List.length_nil, hsh]
    show bandFromResid [] [] settings.alpha_levels 0 0 = _
    rw [bandFromResid, mkQs_error_of_nil halphas]
  · unfold computeConformalBand
    rw [hm]
    rw [if_neg (by decide), if_neg (by decide), if_neg (by decide), if_pos rfl]
    rw [hdc]
    dsimp only
    rw [hlk]
    show bandFromResid [] [] settings.alpha_levels 0 0 = _
    rw [bandFromResid, mkQs_error_of_nil halphas]

unseal Rat.add Rat.sub Rat.mul Rat.inv in
/-- Witness for C3's amended theorem at a fully concrete empty split-mode
call. -/
theorem conformalBand_empty_pool_errors_witness :
    shuffleIdStub 0 = [] ∧ ([(1 : ℚ)/10] ≠ []) ∧
      ("conformal_split" : String) = "conformal_split" ∧
      computeConformalBand lstsqZeroStub shuffleIdStub [] [] [] none []
          ⟨"conformal_split", [1/10], none, none⟩
        = .error (.numpyError "quantile of empty array") :=
  ⟨rfl, by decide, rfl,
    conformalBand_empty_pool_errors lstsqZeroStub shuffleIdStub [] [] none []
      ⟨"conformal_split", [1/10], none, none⟩ rfl (by decide)
      (Or.inr (Or.inl rfl))⟩

unseal Rat.add Rat.sub Rat.mul Rat.inv in
/-- Counterexample for C3: the concrete empty split-mode calibration call
terminates with the numpy empty-array exception, which is not a
repository-raised (dedicated) error: `compute_conformal_band` contains no
calibration-sample guard. -/
theorem conformalBand_empty_pool_no_dedicated_error_counterexample :
    computeConformalBand lstsqZeroStub shuffleIdStub [] [] [] none []
        ⟨"conformal_split", [1/10], none, none⟩
      = .error (.numpyError "quantile of empty array")
    ∧ isRepoValueError (computeConformalBand lstsqZeroStub shuffleIdStub
        [] [] [] none [] ⟨"conformal_split", [1/10], none, none⟩) = false := by
  refine ⟨by decide, by decide⟩

instance : IsRefl (ℕ × ℚ) stableKeyLe :=
  ⟨fun _ => Or.inr ⟨rfl, le_refl _⟩⟩

instance : IsTotal (ℕ × ℚ) stableKeyLe := by
  constructor
  intro p q
  rcases lt_trichotomy p.2 q.2 with h | h | h
  · exact Or.inl (Or.inl h)
  · rcases le_total p.1 q.1 with h1 | h1
    · exact Or.inl (Or.inr ⟨h, h1⟩)
    · exact Or.inr (Or.inr ⟨h.symm, h1⟩)
  · exact Or.inr (Or.inl h)

instance : IsTrans (ℕ × ℚ) stableKeyLe := by
  constructor
  rintro p q r (h1 | ⟨he1, hi1⟩) (h2 | ⟨he2, hi2⟩)
  · exact Or.inl (lt_trans h1 h2)
  · exact Or.inl (he2 ▸ h1)
  · exact Or.inl (he1 ▸ h2)
  · exact Or.inr ⟨he1.trans he2, le_trans hi1 hi2⟩

/-- C4: temporal-mode calibration orders the rows by the ordering key via
a stable argsort and takes the first `int(0.8·n)` ordered rows as the
training segment; hence no calibration-segment row carries a key smaller
than any training-segment row's key, and ties keep their original
relative order (the calibration row of a tie is the one that appeared
later).  `stableArgsort` and `splitCut` are exactly the reordering and
the cut used by the `conformal_temporal` branch of
`compute_conformal_band`. -/
theorem temporal_split_no_lookahead (keys : List ℚ) (i j : ℕ)
    (hi : i < splitCut keys.length) (hj : splitCut keys.length ≤ j)
    (hjn : j < keys.length) :
    keys.getD ((stableArgsort keys).getD i 0) 0
        ≤ keys.getD ((stableArgsort keys).getD j 0) 0 ∧
      (keys.getD ((stableArgsort keys).getD i 0) 0
          = keys.getD ((stableArgsort keys).getD j 0) 0 →
        (stableArgsort keys).getD i 0 < (stableArgsort keys).getD j 0) := by
  classical
  have hij : i < j := lt_of_lt_of_le (lt_of_lt_of_le hi (by
    simp only [splitCut]; omega)) hj
  set n := keys.length with hn
  set pairs := (List.range n).map (fun i => (i, keys.getD i 0)) with hpairs
  set sp := pairs.insertionSort stableKeyLe with hsp
  have hsorted : sp.Sorted stableKeyLe :=
    List.sorted_insertionSort stableKeyLe pairs
  have hperm : List.Perm sp pairs := List.perm_insertionSort stableKeyLe pairs
  have hsplen : sp.length = n := by
    rw [hperm.length_eq, hpairs]; simp
  have hform : stableArgsort keys = sp.map Prod.fst := rfl
  have hmem2 : ∀ p ∈ sp, p.2 = keys.getD p.1 0 := by
    intro p hp
    have hp2 := hperm.mem_iff.mp hp
    rw [hpairs, List.mem_map] at hp2
    obtain ⟨k, _, hk⟩ := hp2
    rw [← hk]
  have hfst : List.Perm (sp.map Prod.fst) (List.range n) := by
    have h1 : pairs.map Prod.fst = List.range n := by
      rw [hpairs, List.map_map]
      have hcomp : (Prod.fst ∘ fun i => (i, keys.getD i 0)) = @id ℕ := by
        funext k; rfl
      rw [hcomp, List.map_id]
    exact h1 ▸ hperm.map Prod.fst
  have hnodup : (sp.map Prod.fst).Nodup :=
    hfst.nodup_iff.mpr (List.nodup_range n)
  have hilen : i < sp.length := by omega
  have hjlen : j < sp.length := by omega
  have hgi : (stableArgsort keys).getD i 0 = (sp.get ⟨i, hilen⟩).1 := by
    rw [hform, (sp.map Prod.fst).getD_eq_getElem 0 (by simpa using hilen)]
    simp
  have hgj : (stableArgsort keys).getD j 0 = (sp.get ⟨j, hjlen⟩).1 := by
    rw [hform, (sp.map Prod.fst).getD_eq_getElem 0 (by simpa using hjlen)]
    simp
  have hrel : stableKeyLe (sp.get ⟨i, hilen⟩) (sp.get ⟨j, hjlen⟩) :=
    hsorted.rel_get_of_lt (by exact hij)
  have hki : (sp.get ⟨i, hilen⟩).2 = keys.getD (sp.get ⟨i, hilen⟩).1 0 :=
    hmem2 _ (List.get_mem sp i hilen)
  have hkj : (sp.get ⟨j, hjlen⟩).2 = keys.getD (sp.get ⟨j, hjlen⟩).1 0 :=
    hmem2 _ (List.get_mem sp j hjlen)
  have hne : (sp.get ⟨i, hilen⟩).1 ≠ (sp.get ⟨j, hjlen⟩).1 := by
    intro heq
    have := List.Nodup.get_inj_iff hnodup
      (i := ⟨i, by simpa using hilen⟩) (j := ⟨j, by simpa using hjlen⟩)
    simp only [List.get_eq_getElem, List.getElem_map] at this
    have hij2 := this.mp (by exact heq)
    simp at hij2
    omega
  rw [hgi, hgj, ← hki, ← hkj]
  rcases hrel with hlt | ⟨heq, hle⟩
  · exact ⟨le_of_lt hlt, fun hk => absurd hk (ne_of_lt hlt)⟩
  · exact ⟨le_of_eq heq, fun _ => lt_of_le_of_ne hle hne⟩

unseal Rat.add Rat.sub Rat.mul Rat.inv in
/-- Witness for C4 on keys `[2,1,1,3]` (with a tie): `n = 4`,
`cut = int(0.8*4) = 3`; training positions `0..2`, calibration position
`3`. -/
theorem temporal_split_no_lookahead_witness :
    0 < splitCut 4 ∧ splitCut 4 ≤ 3 ∧ 3 < 4 ∧
      ([2, 1, 1, 3] : List ℚ).getD ((stableArgsort [2, 1, 1, 3]).getD 0 0) 0
          ≤ ([2, 1, 1, 3] : List ℚ).getD ((stableArgsort [2, 1, 1, 3]).getD 3 0) 0 ∧
        (([2, 1, 1, 3] : List ℚ).getD ((stableArgsort [2, 1, 1, 3]).getD 0 0) 0
            = ([2, 1, 1, 3] : List ℚ).getD ((stableArgsort [2, 1, 1, 3]).getD 3 0) 0 →
          (stableArgsort [2, 1, 1, 3]).getD 0 0 < (stableArgsort [2, 1, 1, 3]).getD 3 0) :=
  ⟨by decide, by decide, by decide,
    temporal_split_no_lookahead [2, 1, 1, 3] 0 3 (by decide) (by decide) (by decide)⟩

lemma regressFit_ols {m n : ℕ} (X : Matrix (Fin m) (Fin n) ℚ)
    (y : Fin m → ℚ) (tau : ℚ) (kwargs : List (String × ℚ)) :
    regressFit "ols" X y tau kwargs = fitOls X y := rfl

/-- Keyword arguments play no role in an OLS fit: the dispatch is the
only place `regress` reads them. -/
lemma regressE_ols_kwargs_irrelevant
    (lstsqL : List (List ℚ) → List ℚ → List ℚ) (shuffle : ℕ → List ℕ)
    {m n : ℕ} (X : Matrix (Fin m) (Fin n) ℚ) (y : Fin m → ℚ)
    (data : List (String × List ℚ)) (family : String)
    (dateCol : Option String) (uncertainty : Option String)
    (cvMethod : Option String) (tau : ℚ)
    (alphaLevels : List ℚ) (kwargs1 kwargs2 : List (String × ℚ)) :
    regressE lstsqL shuffle X y data family "ols" dateCol
        uncertainty cvMethod tau alphaLevels kwargs1
      = regressE lstsqL shuffle X y data family "ols" dateCol
        uncertainty cvMethod tau alphaLevels kwargs2 := by
  unfold regressE
  simp only [regressFit_ols]

/-- C5 (amended): split-mode calibration uses the fixed internal seed
`np.random.default_rng(12345)`; no caller-supplied seed exists.  The
embedded `regress` and `compute_conformal_band` take no seed argument,
and a seed smuggled through `**kwargs` (the only open-ended caller
channel) is ignored: for the OLS method with split-mode uncertainty, any
two keyword dictionaries give literally the same fitted model, partition
included.  Determinism over repeated runs on identical input is immediate
(the generator is re-created with the same constant `12345` on every
call, so the function of the inputs is fixed). -/
theorem regress_split_has_no_caller_seed
    (lstsqL : List (List ℚ) → List ℚ → List ℚ) (shuffle : ℕ → List ℕ)
    {m n : ℕ} (X : Matrix (Fin m) (Fin n) ℚ) (y : Fin m → ℚ)
    (data : List (String × List ℚ)) (family : String)
    (dateCol : Option String) (cvMethod : Option String) (tau : ℚ)
    (alphaLevels : List ℚ) (kwargs1 kwargs2 : List (String × ℚ)) :
    regressE lstsqL shuffle X y data family "ols" dateCol
        (some "conformal_split") cvMethod tau alphaLevels kwargs1
      = regressE lstsqL shuffle X y data family "ols" dateCol
        (some "conformal_split") cvMethod tau alphaLevels kwargs2 :=
  regressE_ols_kwargs_irrelevant lstsqL shuffle X y data family dateCol
    (some "conformal_split") cvMethod tau alphaLevels kwargs1 kwargs2

unseal Rat.add Rat.sub Rat.mul Rat.inv in
/-- Counterexample for C5: a caller who passes `seed=1` versus `seed=2`
through `regress`'s keyword arguments obtains bit-identical partitions
and half-widths on a concrete split-mode fit — the partition is not
derived from any caller-supplied seed.  (`shuffleIdStub` stands for the
internal constant-seed generator's draw, which is the same fixed function
of `n` in both runs by construction of the source.) -/
theorem regress_split_seed_kwarg_ignored_counterexample :
    regressE lstsqZeroStub shuffleIdStub
        (Matrix.of (fun _ _ => 1) : Matrix (Fin 5) (Fin 1) ℚ) (fun _ => 0)
        [] "gaussian" "ols" none (some "conformal_split") none (1/2) [1/10]
        [("seed", 1)]
      = regressE lstsqZeroStub shuffleIdStub
        (Matrix.of (fun _ _ => 1) : Matrix (Fin 5) (Fin 1) ℚ) (fun _ => 0)
        [] "gaussian" "ols" none (some "conformal_split") none (1/2) [1/10]
        [("seed", 2)] :=
  regressE_ols_kwargs_irrelevant lstsqZeroStub shuffleIdStub
    (Matrix.of (fun _ _ => 1) : Matrix (Fin 5) (Fin 1) ℚ) (fun _ => 0)
    [] "gaussian" none (some "conformal_split") none (1/2) [1/10]
    [("seed", 1)] [("seed", 2)]

/-- C6 counterexample: `fit_ols` and `fit_ridge` on a design matrix with
two rows and zero columns return successfully with the empty coefficient
vector — no explicit error is raised, contradicting the claim that every
solver fails on zero-column input. -/
theorem solver_zero_columns_silent_counterexample :
    (fitOls (0 : Matrix (Fin 2) (Fin 0) ℚ) ![1, 1]).map (fun r => r.beta)
        = .ok ![]
    ∧ (fitRidge (0 : Matrix (Fin 2) (Fin 0) ℚ) ![1, 1] 1).map (fun r => r.beta)
        = .ok ![] := by
  constructor
  · exact congrArg Except.ok (Subsingleton.elim _ _)
  · simp only [fitRidge, npSolve, Matrix.det_fin_zero, one_ne_zero, if_false,
      bind, Except.bind, Except.map]
    exact congrArg Except.ok (Subsingleton.elim _ _)

/-- C6 (amended): a zero-column design matrix does not trigger any
explicit solver-level error.  `fit_ols`, `fit_ridge` and `fit_quantile`
silently return the empty coefficient vector; `fit_lasso` and
`fit_huber` do terminate with an exception, but it is numpy's empty-array
reduction error raised by the `inf`-norm convergence test
(`np.linalg.norm(beta - beta_old, ord=np.inf)` on a length-0 vector), not
an input-validation check.  (The `len(y) ≠ rows` half of the original
claim concerns numpy's shape checking, which the dimension-typed
embedding cannot express; it is neither confirmed nor refuted here.) -/
theorem solvers_zero_columns_behavior {m : ℕ} (X : Matrix (Fin m) (Fin 0) ℚ)
    (y : Fin m → ℚ) (alpha tau lr tol delta : ℚ) (maxIter : ℕ)
    (hiter : 1 ≤ maxIter) :
    (fitOls X y).map (fun r => r.beta) = .ok ![] ∧
    (fitRidge X y alpha).map (fun r => r.beta) = .ok ![] ∧
    (fitQuantile X y tau maxIter lr).map (fun r => r.beta) = .ok ![] ∧
    fitLasso X y alpha maxIter tol
      = .error (.numpyError "zero-size array to reduction operation maximum") ∧
    fitHuber X y delta maxIter tol
      = .error (.numpyError "zero-size array to reduction operation maximum") := by
  obtain ⟨k, rfl⟩ : ∃ k, maxIter = k + 1 := ⟨maxIter - 1, by omega⟩
  refine ⟨congrArg Except.ok (Subsingleton.elim _ _), ?_, ?_, ?_, ?_⟩
  · simp only [fitRidge, npSolve, Matrix.det_fin_zero, one_ne_zero, if_false,
      bind, Except.bind, Except.map]
    exact congrArg Except.ok (Subsingleton.elim _ _)
  · exact congrArg Except.ok (Subsingleton.elim _ _)
  · simp only [fitLasso, lassoLoop, npNormInf, eq_self_iff_true, ite_true,
      bind, Except.bind]
  · simp only [fitHuber, huberLoop, npNormInf, eq_self_iff_true, ite_true,
      bind, Except.bind]

/-- Witness for C6's amended theorem at `m = 1`, `maxIter = 1`. -/
theorem solvers_zero_columns_behavior_witness :
    1 ≤ 1 ∧
      ((fitOls (0 : Matrix (Fin 1) (Fin 0) ℚ) ![0]).map (fun r => r.beta) = .ok ![] ∧
      (fitRidge (0 : Matrix (Fin 1) (Fin 0) ℚ) ![0] 1).map (fun r => r.beta) = .ok ![] ∧
      (fitQuantile (0 : Matrix (Fin 1) (Fin 0) ℚ) ![0] (1/2) 1 (1/10)).map (fun r => r.beta) = .ok ![] ∧
      fitLasso (0 : Matrix (Fin 1) (Fin 0) ℚ) ![0] 1 1 (1/1000000)
        = .error (.numpyError "zero-size array to reduction operation maximum") ∧
      fitHuber (0 : Matrix (Fin 1) (Fin 0) ℚ) ![0] (1345/1000) 1 (1/1000000)
        = .error (.numpyError "zero-size array to reduction operation maximum")) :=
  ⟨le_refl 1,
    solvers_zero_columns_behavior (0 : Matrix (Fin 1) (Fin 0) ℚ) ![0]
      1 (1/2) (1/10) (1/1000000) (1345/1000) 1 (le_refl 1)⟩

lemma except_map_eq_ok {A B : Type} {e : Except PyError A} {f : A → B}
    {v : B} (h : e.map f = .ok v) : ∃ r, e = .ok r := by
  cases e with
  | error err => simp [Except.map] at h
  | ok r => exact ⟨r, rfl⟩

/-! ## Minimum-norm least-squares lemmas -/

lemma dotProduct_self_nonneg {k : ℕ} (v : Fin k → ℚ) :
    0 ≤ Matrix.dotProduct v v :=
  Finset.sum_nonneg (fun i _ => mul_self_nonneg (v i))

lemma list_sum_dotProduct {k : ℕ} (l : List (Fin k → ℚ)) (z : Fin k → ℚ) :
    Matrix.dotProduct l.sum z
      = (l.map (fun w => Matrix.dotProduct w z)).sum := by
  induction l with
  | nil => simp [Matrix.zero_dotProduct]
  | cons w ws ih => simp [List.sum_cons, Matrix.add_dotProduct, ih]

lemma projVec_dot_eq_zero {k : ℕ} (t : Fin k → ℚ) (ws : List (Fin k → ℚ))
    (z : Fin k → ℚ) (h : ∀ w ∈ ws, Matrix.dotProduct w z = 0) :
    Matrix.dotProduct (projVec t ws) z = 0 := by
  rw [projVec, list_sum_dotProduct, List.map_map]
  refine List.sum_eq_zero ?_
  intro x hx
  rcases List.mem_map.mp hx with ⟨w, hw, rfl⟩
  show Matrix.dotProduct (projCoef t w • w) z = 0
  rw [Matrix.smul_dotProduct, h w hw, smul_zero]

/-- The residual of the projection on a pairwise-orthogonal list is
orthogonal to every member of the list. -/
lemma sub_projVec_dot {k : ℕ} (t : Fin k → ℚ) (ws : List (Fin k → ℚ))
    (horth : ws.Pairwise (fun u v => Matrix.dotProduct u v = 0)) :
    ∀ w ∈ ws, Matrix.dotProduct (t - projVec t ws) w = 0 := by
  induction ws with
  | nil => intro w hw; cases hw
  | cons w0 rest ih =>
    rw [List.pairwise_cons] at horth
    obtain ⟨h0, hrest⟩ := horth
    intro w hw
    have hcons : projVec t (w0 :: rest) = projCoef t w0 • w0 + projVec t rest := by
      rw [projVec, List.map_cons, List.sum_cons, projVec]
    rcases List.mem_cons.mp hw with heq | hwr
    · rw [heq]
      have hPz : Matrix.dotProduct (projVec t rest) w0 = 0 :=
        projVec_dot_eq_zero t rest w0 (fun v hv => by
          rw [Matrix.dotProduct_comm]
          exact h0 v hv)
      rw [hcons, Matrix.sub_dotProduct, Matrix.add_dotProduct,
        Matrix.smul_dotProduct, hPz, add_zero]
      by_cases hz : Matrix.dotProduct w0 w0 = 0
      · have hw0 : w0 = 0 := Matrix.dotProduct_self_eq_zero.mp hz
        rw [hw0]
        simp
      · rw [projCoef, smul_eq_mul, div_mul_cancel₀ _ hz, sub_self]
    · have hIH := ih hrest w hwr
      rw [Matrix.sub_dotProduct] at hIH
      rw [hcons, Matrix.sub_dotProduct, Matrix.add_dotProduct,
        Matrix.smul_dotProduct, h0 w hwr, smul_zero, zero_add]
      exact hIH

lemma gsFoldl_pairwise {k l : ℕ} :
    ∀ (inputs acc : List ((Fin k → ℚ) × (Fin l → ℚ))),
      (acc.map Prod.fst).Pairwise (fun u v => Matrix.dotProduct u v = 0) →
      ((inputs.foldl (fun a p => a ++ [gsStep a p]) acc).map Prod.fst).Pairwise
        (fun u v => Matrix.dotProduct u v = 0)
  | [], _, h => h
  | p :: ps, acc, h => by
    rw [List.foldl_cons]
    refine gsFoldl_pairwise ps _ ?_
    rw [List.map_append, List.pairwise_append]
    refine ⟨h, ?_, ?_⟩
    · simp only [List.map_cons, List.map_nil]
      exact List.pairwise_singleton _ _
    · intro u hu v hv
      simp only [List.map_cons, List.map_nil, List.mem_singleton] at hv
      subst hv
      show Matrix.dotProduct u (p.1 - projVec p.1 (acc.map Prod.fst)) = 0
      rw [Matrix.dotProduct_comm]
      exact sub_projVec_dot p.1 (acc.map Prod.fst) h u hu

lemma gsFoldl_sub {k l : ℕ} :
    ∀ (inputs acc : List ((Fin k → ℚ) × (Fin l → ℚ))),
      acc ⊆ inputs.foldl (fun a p => a ++ [gsStep a p]) acc
  | [], _ => fun _ hx => hx
  | p :: ps, acc => by
    rw [List.foldl_cons]
    intro x hx
    exact gsFoldl_sub ps _ (List.mem_append_left _ hx)

/-- Anything orthogonal to every Gram-Schmidt output vector is
orthogonal to every input vector. -/
lemma gsFoldl_inputs_orth {k l : ℕ} :
    ∀ (inputs acc : List ((Fin k → ℚ) × (Fin l → ℚ))) (z : Fin k → ℚ),
      (∀ q ∈ inputs.foldl (fun a p => a ++ [gsStep a p]) acc,
        Matrix.dotProduct q.1 z = 0) →
      ∀ p ∈ inputs, Matrix.dotProduct p.1 z = 0
  | [], _, _, _ => fun p hp => absurd hp (List.not_mem_nil p)
  | p :: ps, acc, z, hz => by
    rw [List.foldl_cons] at hz
    intro q hq
    rcases List.mem_cons.mp hq with heq | hqs
    · rw [heq]
      have hsub := gsFoldl_sub (k := k) (l := l) ps (acc ++ [gsStep acc p])
      have hgs : Matrix.dotProduct (gsStep acc p).1 z = 0 :=
        hz _ (hsub (List.mem_append_right _ (List.mem_singleton_self _)))
      have hacc : ∀ w ∈ acc.map Prod.fst, Matrix.dotProduct w z = 0 := by
        intro w hw
        rcases List.mem_map.mp hw with ⟨q2, hq2, hq2e⟩
        rw [← hq2e]
        exact hz _ (hsub (List.mem_append_left _ hq2))
      have hproj : Matrix.dotProduct (projVec p.1 (acc.map Prod.fst)) z = 0 :=
        projVec_dot_eq_zero p.1 _ z hacc
      have hgs2 : Matrix.dotProduct (p.1 - projVec p.1 (acc.map Prod.fst)) z = 0 :=
        hgs
      rw [Matrix.sub_dotProduct, hproj, sub_zero] at hgs2
      exact hgs2
    · exact gsFoldl_inputs_orth ps _ z hz q hqs

lemma mulVec_list_sum {a b : ℕ} (A : Matrix (Fin a) (Fin b) ℚ)
    (l : List (Fin b → ℚ)) :
    A *ᵥ l.sum = (l.map (fun v => A *ᵥ v)).sum := by
  induction l with
  | nil => simp [Matrix.mulVec_zero]
  | cons v vs ih => simp [List.sum_cons, Matrix.mulVec_add, ih]

/-- When every pair in `outs` relates its vector to its certificate via
`A`, the certificate combination maps under `A` to the projection. -/
lemma mulVec_liftVec {k l : ℕ} (A : Matrix (Fin k) (Fin l) ℚ)
    (t : Fin k → ℚ) (outs : List ((Fin k → ℚ) × (Fin l → ℚ)))
    (hcert : ∀ q ∈ outs, q.1 = A *ᵥ q.2) :
    A *ᵥ liftVec t outs = projVec t (outs.map Prod.fst) := by
  rw [liftVec, projVec, mulVec_list_sum, List.map_map, List.map_map]
  refine congrArg List.sum (List.map_congr_left ?_)
  intro q hq
  show A *ᵥ (projCoef t q.1 • q.2) = projCoef t q.1 • q.1
  rw [Matrix.mulVec_smul, ← hcert q hq]

lemma gsFoldl_cert {k l : ℕ} (A : Matrix (Fin k) (Fin l) ℚ) :
    ∀ (inputs acc : List ((Fin k → ℚ) × (Fin l → ℚ))),
      (∀ q ∈ acc, q.1 = A *ᵥ q.2) → (∀ q ∈ inputs, q.1 = A *ᵥ q.2) →
      ∀ q ∈ inputs.foldl (fun a p => a ++ [gsStep a p]) acc, q.1 = A *ᵥ q.2
  | [], _, hacc, _ => hacc
  | p :: ps, acc, hacc, hin => by
    rw [List.foldl_cons]
    refine gsFoldl_cert A ps _ ?_ (fun q hq => hin q (List.mem_cons_of_mem _ hq))
    intro q hq
    rcases List.mem_append.mp hq with hq | hq
    · exact hacc q hq
    · rw [List.mem_singleton] at hq
      subst hq
      show p.1 - projVec p.1 (acc.map Prod.fst) = A *ᵥ (p.2 - liftVec p.1 acc)
      rw [Matrix.mulVec_sub, ← hin p (List.mem_cons_self _ _),
        mulVec_liftVec A p.1 acc hacc]

lemma colPairs_cert {m n : ℕ} (X : Matrix (Fin m) (Fin n) ℚ) :
    ∀ q ∈ colPairs X, q.1 = X *ᵥ q.2 := by
  intro q hq
  rcases List.mem_map.mp hq with ⟨j, _, rfl⟩
  show (fun i => X i j) = X *ᵥ Pi.single j 1
  rw [Matrix.mulVec_single]
  funext i
  rw [mul_one]

lemma rowPairs_cert {m n : ℕ} (X : Matrix (Fin m) (Fin n) ℚ) :
    ∀ q ∈ rowPairs X, q.1 = Xᵀ *ᵥ q.2 := by
  intro q hq
  rcases List.mem_map.mp hq with ⟨i, _, rfl⟩
  show (fun j => X i j) = Xᵀ *ᵥ Pi.single i 1
  rw [Matrix.mulVec_single]
  funext j
  rw [mul_one, Matrix.transpose_apply]

lemma colPairs_mem {m n : ℕ} (X : Matrix (Fin m) (Fin n) ℚ) (j : Fin n) :
    ((fun i => X i j, Pi.single j 1) : (Fin m → ℚ) × (Fin n → ℚ))
      ∈ colPairs X :=
  List.mem_map.mpr ⟨j, List.mem_finRange j, rfl⟩

lemma rowPairs_mem {m n : ℕ} (X : Matrix (Fin m) (Fin n) ℚ) (i : Fin m) :
    ((fun j => X i j, Pi.single i 1) : (Fin n → ℚ) × (Fin m → ℚ))
      ∈ rowPairs X :=
  List.mem_map.mpr ⟨i, List.mem_finRange i, rfl⟩

/-- The two structural facts behind the modelled `np.linalg.lstsq`: the
residual of its value is orthogonal to every column of `X` (the normal
equations, so the value is a least-squares minimiser), and the value
lies in the row space of `X` (so it is the minimum-norm minimiser). -/
lemma npLstsq_facts {m n : ℕ} (X : Matrix (Fin m) (Fin n) ℚ) (y : Fin m → ℚ) :
    Xᵀ *ᵥ (y - X *ᵥ npLstsq X y) = 0 ∧ ∃ c, npLstsq X y = Xᵀ *ᵥ c := by
  have hnilC : ∀ q ∈ ([] : List ((Fin m → ℚ) × (Fin n → ℚ))), q.1 = X *ᵥ q.2 :=
    fun q hq => absurd hq (List.not_mem_nil q)
  have hnilR : ∀ q ∈ ([] : List ((Fin n → ℚ) × (Fin m → ℚ))), q.1 = Xᵀ *ᵥ q.2 :=
    fun q hq => absurd hq (List.not_mem_nil q)
  have hcertC : ∀ q ∈ gsFold (colPairs X), q.1 = X *ᵥ q.2 :=
    gsFoldl_cert X (colPairs X) [] hnilC (colPairs_cert X)
  have hcertR : ∀ q ∈ gsFold (rowPairs X), q.1 = Xᵀ *ᵥ q.2 :=
    gsFoldl_cert Xᵀ (rowPairs X) [] hnilR (rowPairs_cert X)
  have horthC : ((gsFold (colPairs X)).map Prod.fst).Pairwise
      (fun u v => Matrix.dotProduct u v = 0) :=
    gsFoldl_pairwise (colPairs X) [] List.Pairwise.nil
  have horthR : ((gsFold (rowPairs X)).map Prod.fst).Pairwise
      (fun u v => Matrix.dotProduct u v = 0) :=
    gsFoldl_pairwise (rowPairs X) [] List.Pairwise.nil
  have hXgam : X *ᵥ liftVec y (gsFold (colPairs X))
      = projVec y ((gsFold (colPairs X)).map Prod.fst) :=
    mulVec_liftVec X y (gsFold (colPairs X)) hcertC
  have hresC : ∀ p ∈ colPairs X, Matrix.dotProduct p.1
      (y - projVec y ((gsFold (colPairs X)).map Prod.fst)) = 0 := by
    refine gsFoldl_inputs_orth (colPairs X) [] _ ?_
    intro q hq
    rw [Matrix.dotProduct_comm]
    exact sub_projVec_dot y ((gsFold (colPairs X)).map Prod.fst) horthC q.1
      (List.mem_map_of_mem Prod.fst hq)
  have hresR : ∀ p ∈ rowPairs X, Matrix.dotProduct p.1
      (liftVec y (gsFold (colPairs X)) - npLstsq X y) = 0 := by
    refine gsFoldl_inputs_orth (rowPairs X) [] _ ?_
    intro q hq
    rw [Matrix.dotProduct_comm]
    exact sub_projVec_dot (liftVec y (gsFold (colPairs X)))
      ((gsFold (rowPairs X)).map Prod.fst) horthR q.1
      (List.mem_map_of_mem Prod.fst hq)
  have hXsub : X *ᵥ (liftVec y (gsFold (colPairs X)) - npLstsq X y) = 0 := by
    funext i
    show Matrix.dotProduct (fun j => X i j)
      (liftVec y (gsFold (colPairs X)) - npLstsq X y) = 0
    exact hresR _ (rowPairs_mem X i)
  have hXbeta : X *ᵥ npLstsq X y
      = projVec y ((gsFold (colPairs X)).map Prod.fst) := by
    have hdiff : X *ᵥ liftVec y (gsFold (colPairs X)) - X *ᵥ npLstsq X y = 0 := by
      rw [← Matrix.mulVec_sub]
      exact hXsub
    rw [sub_eq_zero] at hdiff
    rw [← hdiff, hXgam]
  refine ⟨?_, liftVec (liftVec y (gsFold (colPairs X))) (gsFold (rowPairs X)), ?_⟩
  · funext j
    show Matrix.dotProduct (fun i => X i j) (y - X *ᵥ npLstsq X y) = 0
    rw [hXbeta]
    exact hresC _ (colPairs_mem X j)
  · exact (mulVec_liftVec Xᵀ (liftVec y (gsFold (colPairs X)))
      (gsFold (rowPairs X)) hcertR).symm

lemma dot_sq_split {k : ℕ} (r d : Fin k → ℚ) :
    Matrix.dotProduct (r + d) (r + d)
      = Matrix.dotProduct r r + 2 * Matrix.dotProduct d r
        + Matrix.dotProduct d d := by
  simp only [Matrix.dotProduct, Pi.add_apply, Finset.mul_sum,
    ← Finset.sum_add_distrib]
  exact Finset.sum_congr rfl (fun i _ => by ring)

lemma lstsq_cross_term_zero {m n : ℕ} (X : Matrix (Fin m) (Fin n) ℚ)
    (y : Fin m → ℚ) (b : Fin n → ℚ) :
    Matrix.dotProduct (X *ᵥ npLstsq X y - X *ᵥ b)
      (y - X *ᵥ npLstsq X y) = 0 := by
  obtain ⟨horth, -⟩ := npLstsq_facts X y
  rw [← Matrix.mulVec_sub, Matrix.dotProduct_comm, Matrix.dotProduct_mulVec,
    ← Matrix.mulVec_transpose, horth, Matrix.zero_dotProduct]

lemma lstsq_residual_split {m n : ℕ} (X : Matrix (Fin m) (Fin n) ℚ)
    (y : Fin m → ℚ) (b : Fin n → ℚ) :
    Matrix.dotProduct (y - X *ᵥ b) (y - X *ᵥ b)
      = Matrix.dotProduct (y - X *ᵥ npLstsq X y) (y - X *ᵥ npLstsq X y)
        + Matrix.dotProduct (X *ᵥ npLstsq X y - X *ᵥ b)
            (X *ᵥ npLstsq X y - X *ᵥ b) := by
  have hsum : y - X *ᵥ b
      = (y - X *ᵥ npLstsq X y) + (X *ᵥ npLstsq X y - X *ᵥ b) :=
    (sub_add_sub_cancel _ _ _).symm
  rw [hsum, dot_sq_split, lstsq_cross_term_zero X y b, mul_zero, add_zero]

/-- The modelled least-squares value minimises the squared residual. -/
lemma npLstsq_minimizer {m n : ℕ} (X : Matrix (Fin m) (Fin n) ℚ)
    (y : Fin m → ℚ) (b : Fin n → ℚ) :
    Matrix.dotProduct (y - X *ᵥ npLstsq X y) (y - X *ᵥ npLstsq X y)
      ≤ Matrix.dotProduct (y - X *ᵥ b) (y - X *ᵥ b) := by
  rw [lstsq_residual_split X y b]
  have := dotProduct_self_nonneg (X *ᵥ npLstsq X y - X *ᵥ b)
  linarith

/-- Among all coefficient vectors attaining the minimal squared
residual, the modelled least-squares value has the smallest squared
norm. -/
lemma npLstsq_min_norm {m n : ℕ} (X : Matrix (Fin m) (Fin n) ℚ)
    (y : Fin m → ℚ) (b : Fin n → ℚ)
    (hres : Matrix.dotProduct (y - X *ᵥ b) (y - X *ᵥ b)
      = Matrix.dotProduct (y - X *ᵥ npLstsq X y) (y - X *ᵥ npLstsq X y)) :
    Matrix.dotProduct (npLstsq X y) (npLstsq X y)
      ≤ Matrix.dotProduct b b := by
  obtain ⟨-, c, hc⟩ := npLstsq_facts X y
  have hzero : Matrix.dotProduct (X *ᵥ npLstsq X y - X *ᵥ b)
      (X *ᵥ npLstsq X y - X *ᵥ b) = 0 := by
    have hsplit := lstsq_residual_split X y b
    linarith
  have hXeq : X *ᵥ npLstsq X y - X *ᵥ b = 0 :=
    Matrix.dotProduct_self_eq_zero.mp hzero
  have hXeq2 : X *ᵥ npLstsq X y = X *ᵥ b := sub_eq_zero.mp hXeq
  have hv : X *ᵥ (b - npLstsq X y) = 0 := by
    rw [Matrix.mulVec_sub, ← hXeq2, sub_self]
  have hperp : Matrix.dotProduct (npLstsq X y) (b - npLstsq X y) = 0 := by
    nth_rewrite 1 [hc]
    rw [Matrix.mulVec_transpose, ← Matrix.dotProduct_mulVec, hv,
      Matrix.dotProduct_zero]
  have hperp2 : Matrix.dotProduct (b - npLstsq X y) (npLstsq X y) = 0 := by
    rw [Matrix.dotProduct_comm]
    exact hperp
  have hsum : b = npLstsq X y + (b - npLstsq X y) := by
    abel
  rw [hsum, dot_sq_split, hperp2, mul_zero, add_zero]
  have := dotProduct_self_nonneg (b - npLstsq X y)
  linarith

/-- Under full column rank (`det(XᵀX) ≠ 0`) the minimum-norm
least-squares value is the normal-equations solution. -/
lemma npLstsq_full_column_rank {m n : ℕ} (X : Matrix (Fin m) (Fin n) ℚ)
    (y : Fin m → ℚ) (hdet : (Xᵀ * X).det ≠ 0) :
    npLstsq X y = matInv (Xᵀ * X) *ᵥ (Xᵀ *ᵥ y) := by
  obtain ⟨horth, -⟩ := npLstsq_facts X y
  have hne : (Xᵀ * X) *ᵥ npLstsq X y = Xᵀ *ᵥ y := by
    have h1 : Xᵀ *ᵥ y - Xᵀ *ᵥ (X *ᵥ npLstsq X y) = 0 := by
      rw [← Matrix.mulVec_sub]
      exact horth
    rw [sub_eq_zero] at h1
    rw [← Matrix.mulVec_mulVec]
    exact h1.symm
  calc npLstsq X y
      = (1 : Matrix (Fin n) (Fin n) ℚ) *ᵥ npLstsq X y :=
        (Matrix.one_mulVec _).symm
    _ = (matInv (Xᵀ * X) * (Xᵀ * X)) *ᵥ npLstsq X y := by
        rw [matInv_eq_inv,
          Matrix.nonsing_inv_mul _ (isUnit_iff_ne_zero.mpr hdet)]
    _ = matInv (Xᵀ * X) *ᵥ ((Xᵀ * X) *ᵥ npLstsq X y) :=
        (Matrix.mulVec_mulVec _ _ _).symm
    _ = matInv (Xᵀ * X) *ᵥ (Xᵀ *ᵥ y) := by rw [hne]

/-- C7: with `λ = 0` and a full-column-rank design (`det(XᵀX) ≠ 0`, the
exact-arithmetic form of full column rank), `fit_ridge` solves
`(XᵀX + 0·I) β = Xᵀy`, which is exactly the normal-equations solution
`(XᵀX)⁻¹ Xᵀ y` that `fit_ols`'s least-squares solve returns: the two
coefficient vectors are exactly equal over ℚ. -/
theorem ridge_lambda_zero_equals_ols {m n : ℕ} (X : Matrix (Fin m) (Fin n) ℚ)
    (y : Fin m → ℚ) (hdet : (Xᵀ * X).det ≠ 0) :
    (∃ r, fitRidge X y 0 = .ok r) ∧
    (fitRidge X y 0).map (fun r => r.beta)
      = (fitOls X y).map (fun r => r.beta) := by
  have hA : Xᵀ * X + (0 : ℚ) • (1 : Matrix (Fin n) (Fin n) ℚ) = Xᵀ * X := by
    rw [zero_smul, add_zero]
  have hmap : (fitRidge X y 0).map (fun r => r.beta)
      = (fitOls X y).map (fun r => r.beta) := by
    simp only [fitRidge, fitOls, weightedLstsq, hA, npSolve,
      if_neg hdet, bind, Except.bind, Except.map]
    rw [npLstsq_full_column_rank X y hdet]
  exact ⟨except_map_eq_ok (v := npLstsq X y) (by
    rw [hmap]
    simp only [fitOls, weightedLstsq, Except.map]), hmap⟩

/-- Witness for C7 at `X = [[1],[2]]`, `y = [1,1]`: `XᵀX = [[5]]` is
invertible and both solvers agree. -/
theorem ridge_lambda_zero_equals_ols_witness :
    ((!![(1:ℚ); 2])ᵀ * (!![(1:ℚ); 2])).det ≠ 0 ∧
      ((∃ r, fitRidge (!![(1:ℚ); 2]) ![1, 1] 0 = .ok r) ∧
      (fitRidge (!![(1:ℚ); 2]) ![1, 1] 0).map (fun r => r.beta)
        = (fitOls (!![(1:ℚ); 2]) ![1, 1]).map (fun r => r.beta)) :=
  have hd : ((!![(1:ℚ); 2])ᵀ * (!![(1:ℚ); 2])).det ≠ 0 := by
    norm_num [Matrix.det_fin_one, Matrix.mul_apply, Fin.sum_univ_two,
      Matrix.vecHead, Matrix.transpose_apply]
  ⟨hd, ridge_lambda_zero_equals_ols (!![(1:ℚ); 2]) ![1, 1] hd⟩

/-- C8: on an under-determined system (`rows < cols`, no rank
assumption: rank-deficient designs are covered as well), the
least-squares solve used by `weighted_lstsq` returns without raising,
and the returned `beta` (the value of the modelled `np.linalg.lstsq`)
is a least-squares solution of minimum squared Euclidean norm: no
coefficient vector has a smaller squared residual, and among all
coefficient vectors attaining the same (minimal) squared residual none
has a smaller squared norm. -/
theorem lstsq_underdetermined_min_norm {m n : ℕ} (X : Matrix (Fin m) (Fin n) ℚ)
    (y : Fin m → ℚ) (_hmn : m < n) :
    fitOls X y = .ok (weightedLstsq X y none) ∧
    (∀ b : Fin n → ℚ,
      Matrix.dotProduct (y - X *ᵥ (weightedLstsq X y none).beta)
          (y - X *ᵥ (weightedLstsq X y none).beta)
        ≤ Matrix.dotProduct (y - X *ᵥ b) (y - X *ᵥ b)) ∧
    (∀ b : Fin n → ℚ,
      Matrix.dotProduct (y - X *ᵥ b) (y - X *ᵥ b)
          = Matrix.dotProduct (y - X *ᵥ (weightedLstsq X y none).beta)
              (y - X *ᵥ (weightedLstsq X y none).beta) →
      Matrix.dotProduct (weightedLstsq X y none).beta
          (weightedLstsq X y none).beta
        ≤ Matrix.dotProduct b b) := by
  have hbeta : (weightedLstsq X y none).beta = npLstsq X y := rfl
  refine ⟨rfl, ?_, ?_⟩
  · intro b
    rw [hbeta]
    exact npLstsq_minimizer X y b
  · intro b hb
    rw [hbeta] at hb ⊢
    exact npLstsq_min_norm X y b hb

/-- Witness for C8 at `X = [[1, 0]]` (one row, two columns), `y = [2]`:
the solve returns, its residual is minimal, and every equal-residual
coefficient vector has at least its squared norm. -/
theorem lstsq_underdetermined_min_norm_witness :
    1 < 2 ∧
      (fitOls (!![(1:ℚ), 0]) ![2]
          = .ok (weightedLstsq (!![(1:ℚ), 0]) ![2] none) ∧
      (∀ b : Fin 2 → ℚ,
        Matrix.dotProduct
            (![2] - (!![(1:ℚ), 0]) *ᵥ (weightedLstsq (!![(1:ℚ), 0]) ![2] none).beta)
            (![2] - (!![(1:ℚ), 0]) *ᵥ (weightedLstsq (!![(1:ℚ), 0]) ![2] none).beta)
          ≤ Matrix.dotProduct (![2] - (!![(1:ℚ), 0]) *ᵥ b)
              (![2] - (!![(1:ℚ), 0]) *ᵥ b)) ∧
      (∀ b : Fin 2 → ℚ,
        Matrix.dotProduct (![2] - (!![(1:ℚ), 0]) *ᵥ b)
            (![2] - (!![(1:ℚ), 0]) *ᵥ b)
            = Matrix.dotProduct
                (![2] - (!![(1:ℚ), 0]) *ᵥ (weightedLstsq (!![(1:ℚ), 0]) ![2] none).beta)
                (![2] - (!![(1:ℚ), 0]) *ᵥ (weightedLstsq (!![(1:ℚ), 0]) ![2] none).beta) →
        Matrix.dotProduct (weightedLstsq (!![(1:ℚ), 0]) ![2] none).beta
            (weightedLstsq (!![(1:ℚ), 0]) ![2] none).beta
          ≤ Matrix.dotProduct b b)) :=
  ⟨by omega, lstsq_underdetermined_min_norm (!![(1:ℚ), 0]) ![2] (by omega)⟩

lemma lassoLoop_iterate {m n : ℕ} (X : Matrix (Fin m) (Fin n) ℚ)
    (y : Fin m → ℚ) (alpha tol : ℚ) (hn : n ≠ 0) :
    ∀ (fuel : ℕ) (b : Fin n → ℚ),
      ∃ k, k ≤ fuel ∧
        lassoLoop X y alpha tol fuel b = .ok ((lassoSweep X y alpha)^[k] b)
  | 0, b => ⟨0, le_refl 0, rfl⟩
  | fuel + 1, b => by
    rw [lassoLoop, npNormInf, if_neg hn]
    dsimp only
    split_ifs with hd
    · exact ⟨1, by omega, by rw [Function.iterate_one]⟩
    · obtain ⟨k, hk, heq⟩ :=
        lassoLoop_iterate X y alpha tol hn fuel (lassoSweep X y alpha b)
      exact ⟨k + 1, by omega, by rw [heq, Function.iterate_succ_apply]⟩

lemma huberLoop_iterate {m n : ℕ} (X : Matrix (Fin m) (Fin n) ℚ)
    (y : Fin m → ℚ) (delta tol : ℚ) (hn : n ≠ 0) :
    ∀ (fuel : ℕ) (st : FitResult m n),
      ∃ k, k ≤ fuel ∧
        huberLoop X y delta tol fuel st = .ok ((huberStep X y delta)^[k] st)
  | 0, st => ⟨0, le_refl 0, rfl⟩
  | fuel + 1, st => by
    rw [huberLoop, npNormInf, if_neg hn]
    dsimp only
    split_ifs with hd
    · exact ⟨1, by omega, by rw [Function.iterate_one]⟩
    · obtain ⟨k, hk, heq⟩ :=
        huberLoop_iterate X y delta tol hn fuel (huberStep X y delta st)
      exact ⟨k + 1, by omega, by rw [heq, Function.iterate_succ_apply]⟩

lemma quantileLoop_iterate {m n : ℕ} (X : Matrix (Fin m) (Fin n) ℚ)
    (y : Fin m → ℚ) (tau lr : ℚ) :
    ∀ (fuel : ℕ) (b : Fin n → ℚ),
      ∃ k, k ≤ fuel ∧
        quantileLoop X y tau lr fuel b = (quantileStep X y tau lr)^[k] b
  | 0, b => ⟨0, le_refl 0, rfl⟩
  | fuel + 1, b => by
    rw [quantileLoop]
    split_ifs with hd
    · exact ⟨1, by omega, by rw [Function.iterate_one]⟩
    · obtain ⟨k, hk, heq⟩ :=
        quantileLoop_iterate X y tau lr fuel (quantileStep X y tau lr b)
      exact ⟨k + 1, by omega, by rw [heq, Function.iterate_succ_apply]⟩

/-- C9: the three iterative solvers terminate on every valid input
(`n ≥ 1` columns): each performs at most `max_iter` iterations of its
update step and returns the coefficients it has at that point — an
iterate of order at most `max_iter` of the respective step function —
whether or not the tolerance was ever met. -/
theorem iterative_solvers_terminate_at_cap {m n : ℕ}
    (X : Matrix (Fin m) (Fin n) ℚ) (y : Fin m → ℚ)
    (alpha tau lr tol delta : ℚ) (maxIter : ℕ) (hn : 0 < n) :
    (∃ k, k ≤ maxIter ∧ (fitLasso X y alpha maxIter tol).map (fun r => r.beta)
        = .ok ((lassoSweep X y alpha)^[k] (fun _ => 0))) ∧
    (∃ k, k ≤ maxIter ∧ (fitHuber X y delta maxIter tol).map (fun r => r.beta)
        = .ok (((huberStep X y delta)^[k] (weightedLstsq X y none)).beta)) ∧
    (∃ k, k ≤ maxIter ∧ (fitQuantile X y tau maxIter lr).map (fun r => r.beta)
        = .ok ((quantileStep X y tau lr)^[k] (fun _ => 0))) := by
  have hne : n ≠ 0 := Nat.pos_iff_ne_zero.mp hn
  refine ⟨?_, ?_, ?_⟩
  · obtain ⟨k, hk, heq⟩ :=
      lassoLoop_iterate X y alpha tol hne maxIter (fun _ => 0)
    exact ⟨k, hk, by
      simp only [fitLasso, heq, bind, Except.bind, Except.map]⟩
  · obtain ⟨k, hk, heq⟩ :=
      huberLoop_iterate X y delta tol hne maxIter (weightedLstsq X y none)
    exact ⟨k, hk, by
      simp only [fitHuber, heq, Except.map]⟩
  · obtain ⟨k, hk, heq⟩ :=
      quantileLoop_iterate X y tau lr maxIter (fun _ => 0)
    exact ⟨k, hk, by
      simp only [fitQuantile, heq, bind, Except.bind, Except.map]⟩

/-- Witness for C9 at a concrete one-column fit with `maxIter = 1`. -/
theorem iterative_solvers_terminate_at_cap_witness :
    0 < 1 ∧
      ((∃ k, k ≤ 1 ∧ (fitLasso (!![(1:ℚ)]) ![0] 1 1 (1/1000000)).map (fun r => r.beta)
          = .ok ((lassoSweep (!![(1:ℚ)]) ![0] 1)^[k] (fun _ => 0))) ∧
      (∃ k, k ≤ 1 ∧ (fitHuber (!![(1:ℚ)]) ![0] (1345/1000) 1 (1/1000000)).map (fun r => r.beta)
          = .ok (((huberStep (!![(1:ℚ)]) ![0] (1345/1000))^[k]
              (weightedLstsq (!![(1:ℚ)]) ![0] none)).beta)) ∧
      (∃ k, k ≤ 1 ∧ (fitQuantile (!![(1:ℚ)]) ![0] (1/2) 1 (1/10)).map (fun r => r.beta)
          = .ok ((quantileStep (!![(1:ℚ)]) ![0] (1/2) (1/10))^[k] (fun _ => 0)))) :=
  ⟨Nat.one_pos,
    iterative_solvers_terminate_at_cap (!![(1:ℚ)]) ![0] 1 (1/2) (1/10)
      (1/1000000) (1345/1000) 1 Nat.one_pos⟩

lemma except_bind_ok {A B : Type} {e : Except PyError A}
    {f : A → Except PyError B} {b : B}
    (h : (e >>= f) = .ok b) : ∃ a, e = .ok a ∧ f a = .ok b := by
  cases e with
  | error err => simp [Bind.bind, Except.bind] at h
  | ok a => exact ⟨a, rfl, by simpa [Bind.bind, Except.bind] using h⟩

lemma except_bind_error {A B : Type} {e : Except PyError A}
    {f : A → Except PyError B} {err : PyError}
    (h : (e >>= f) = .error err) :
    e = .error err ∨ ∃ a, e = .ok a ∧ f a = .error err := by
  cases e with
  | error e0 => simp [Bind.bind, Except.bind] at h; exact Or.inl (by rw [h])
  | ok a => exact Or.inr ⟨a, rfl, by simpa [Bind.bind, Except.bind] using h⟩

lemma npQuantileE_error_msg {xs : List ℚ} {q : ℚ} {e : PyError}
    (h : npQuantileE xs q = .error e) :
    e = .numpyError "quantile of empty array" := by
  unfold npQuantileE at h
  split_ifs at h
  exact ((Except.error.injEq _ _).mp h).symm

lemma mkQs_error_msg {resid alphas : List ℚ} {e : PyError}
    (h : mkQs resid alphas = .error e) :
    e = .numpyError "quantile of empty array" := by
  induction alphas with
  | nil => cases h
  | cons a as ih =>
    rw [mkQs] at h
    cases hq : npQuantileE resid (1 - a) with
    | error e1 =>
      rw [hq] at h
      cases h
      exact npQuantileE_error_msg hq
    | ok q1 =>
      rw [hq] at h
      cases hmk : mkQs resid as with
      | error e2 =>
        rw [hmk] at h
        cases h
        exact ih hmk
      | ok rest => rw [hmk] at h; cases h

lemma pyMin_error_msg {l : List ℚ} {e : PyError}
    (h : pyMin l = .error e) :
    e = .valueError "min() arg is an empty sequence" := by
  cases l with
  | nil => cases h; rfl
  | cons x xs => cases h

lemma bandFromResid_error_msg {resid cover alphas : List ℚ} {tr cr : ℕ}
    {e : PyError} (h : bandFromResid resid cover alphas tr cr = .error e) :
    e = .numpyError "quantile of empty array" ∨
      e = .valueError "min() arg is an empty sequence" := by
  unfold bandFromResid at h
  cases hmk : mkQs resid alphas with
  | error e1 =>
    rw [hmk] at h; cases h; exact Or.inl (mkQs_error_msg hmk)
  | ok qs =>
    rw [hmk] at h
    dsimp only at h
    cases hpm : pyMin alphas with
    | error e2 =>
      rw [hpm] at h; cases h; exact Or.inr (pyMin_error_msg hpm)
    | ok minA =>
      rw [hpm] at h
      dsimp only at h
      cases hq : npQuantileE resid (1 - minA) with
      | error e3 =>
        rw [hq] at h; cases h; exact Or.inl (npQuantileE_error_msg hq)
      | ok qm => rw [hq] at h; cases h

/-- When `hat_diag` is present, the thinning branch can only fail inside
the quantile machinery, never with the `hat_diag` guard's error. -/
lemma computeConformalBand_thinning_some_no_guard_error
    (lstsqL : List (List ℚ) → List ℚ → List ℚ) (shuffle : ℕ → List ℕ)
    (X : List (List ℚ)) (y : List ℚ) (beta : List ℚ) (hd : List ℚ)
    (data : List (String × List ℚ)) (settings : ConformalSettings)
    (hmode : settings.mode = "conformal_thinning") :
    computeConformalBand lstsqL shuffle X y beta (some hd) data settings
      ≠ .error (.valueError "hat_diag required for thinning") := by
  intro h
  unfold computeConformalBand at h
  rw [hmode, if_pos rfl] at h
  rcases bandFromResid_error_msg h with h1 | h1
  · cases h1
  · exact absurd h1 (by decide)

lemma npNormInf_error_msg {k : ℕ} {v : Fin k → ℚ} {e : PyError}
    (h : npNormInf v = .error e) :
    e = .numpyError "zero-size array to reduction operation maximum" := by
  unfold npNormInf at h
  split_ifs at h
  exact ((Except.error.injEq _ _).mp h).symm

lemma lassoLoop_error_msg {m n : ℕ} (X : Matrix (Fin m) (Fin n) ℚ)
    (y : Fin m → ℚ) (alpha tol : ℚ) :
    ∀ (fuel : ℕ) (b : Fin n → ℚ) {e : PyError},
      lassoLoop X y alpha tol fuel b = .error e →
      e = .numpyError "zero-size array to reduction operation maximum"
  | 0, b, e, h => by cases h
  | fuel + 1, b, e, h => by
    rw [lassoLoop] at h
    cases hq : npNormInf (fun j => lassoSweep X y alpha b j - b j) with
    | error e1 =>
      rw [hq] at h
      cases h
      exact npNormInf_error_msg hq
    | ok d =>
      rw [hq] at h
      dsimp only at h
      split_ifs at h
      exact lassoLoop_error_msg X y alpha tol fuel _ h

lemma huberLoop_error_msg {m n : ℕ} (X : Matrix (Fin m) (Fin n) ℚ)
    (y : Fin m → ℚ) (delta tol : ℚ) :
    ∀ (fuel : ℕ) (st : FitResult m n) {e : PyError},
      huberLoop X y delta tol fuel st = .error e →
      e = .numpyError "zero-size array to reduction operation maximum"
  | 0, st, e, h => by cases h
  | fuel + 1, st, e, h => by
    rw [huberLoop] at h
    cases hq : npNormInf
        (fun j => (huberStep X y delta st).beta j - st.beta j) with
    | error e1 =>
      rw [hq] at h
      cases h
      exact npNormInf_error_msg hq
    | ok d =>
      rw [hq] at h
      dsimp only at h
      split_ifs at h
      exact huberLoop_error_msg X y delta tol fuel _ h

lemma regressFit_error_msg {m n : ℕ} {X : Matrix (Fin m) (Fin n) ℚ}
    {y : Fin m → ℚ} {tau : ℚ} {kwargs : List (String × ℚ)}
    {method : String} {e : PyError}
    (hmethod : method = "ols" ∨ method = "ridge" ∨ method = "lasso" ∨
      method = "robust" ∨ method = "quantile")
    (h : regressFit method X y tau kwargs = .error e) :
    e = .numpyError "Singular matrix" ∨
      e = .numpyError "zero-size array to reduction operation maximum" := by
  rcases hmethod with rfl | rfl | rfl | rfl | rfl
  · simp [regressFit, fitOls] at h
  · have h2 : fitRidge X y (pyKwGet kwargs "alpha" 1) = .error e := h
    unfold fitRidge at h2
    rcases except_bind_error h2 with h3 | ⟨b, _, h3⟩
    · unfold npSolve at h3
      split_ifs at h3
      exact Or.inl ((Except.error.injEq _ _).mp h3).symm
    · cases h3
  · have h2 : fitLasso X y (pyKwGet kwargs "alpha" 1) = .error e := h
    unfold fitLasso at h2
    rcases except_bind_error h2 with h3 | ⟨b, _, h3⟩
    · exact Or.inr (lassoLoop_error_msg X y _ _ _ _ h3)
    · cases h3
  · exact Or.inr (huberLoop_error_msg X y _ _ _ _ h)
  · simp [regressFit, fitQuantile, bind, Except.bind] at h

lemma dateCol_msg_ne (dc : String) :
    ("date_col '" ++ dc ++ "' not found in data")
      ≠ "hat_diag required for thinning" := by
  intro h
  have h2 := congrArg (fun s : String => s.data.head?) h
  simp [String.data_append] at h2

/-- C10: every solver returns a present (non-`None`) `hat_diag` array,
so every fitted model that `regress` produces carries one, and the
`hat_diag required for thinning` error branch of
`compute_conformal_band` is unreachable from `regress`: forcing
thinning-mode calibration is silently accepted for every estimation
method — lasso, robust (Huber) and quantile included — not only
OLS/Ridge. -/
theorem regress_thinning_accepts_all_methods
    (lstsqL : List (List ℚ) → List ℚ → List ℚ) (shuffle : ℕ → List ℕ)
    {m n : ℕ} (X : Matrix (Fin m) (Fin n) ℚ) (y : Fin m → ℚ)
    (data : List (String × List ℚ)) (family : String)
    (dateCol : Option String) (cvMethod : Option String) (tau : ℚ)
    (alphaLevels : List ℚ) (kwargs : List (String × ℚ)) (method : String)
    (hmethod : method = "ols" ∨ method = "ridge" ∨ method = "lasso" ∨
      method = "robust" ∨ method = "quantile") :
    (∀ (uncertainty : Option String) (model : RegressModelE m n),
        regressE lstsqL shuffle X y data family method dateCol uncertainty
          cvMethod tau alphaLevels kwargs = .ok model →
        model.hatDiag ≠ none) ∧
    regressE lstsqL shuffle X y data family method dateCol
        (some "conformal_thinning") cvMethod tau alphaLevels kwargs
      ≠ .error (.valueError "hat_diag required for thinning") := by
  constructor
  · intro u model hok
    unfold regressE at hok
    obtain ⟨u0, h1, hok⟩ := except_bind_ok hok
    obtain ⟨fit, h2, hok⟩ := except_bind_ok hok
    cases u with
    | none =>
      cases hok
      simp
    | some us =>
      dsimp only at hok
      obtain ⟨band, h3, hok⟩ := except_bind_ok hok
      cases hok
      simp
  · intro h
    unfold regressE at h
    rcases except_bind_error h with h1 | ⟨u1, h1, h⟩
    · cases dateCol with
      | none => cases h1
      | some dc =>
        dsimp only at h1
        split_ifs at h1
        have hmsg := (PyError.valueError.injEq _ _).mp
          ((Except.error.injEq _ _).mp h1)
        exact dateCol_msg_ne dc hmsg
    · rcases except_bind_error h with h2 | ⟨fit, h2, h⟩
      · rcases regressFit_error_msg hmethod h2 with h3 | h3 <;> cases h3
      · dsimp only at h
        rw [if_neg (by decide : ¬("conformal_thinning" = "conformal"))] at h
        rcases except_bind_error h with h3 | ⟨band, h3, h⟩
        · exact computeConformalBand_thinning_some_no_guard_error
            lstsqL shuffle (matToLists X) (List.ofFn y) (List.ofFn fit.beta)
            (List.ofFn fit.hatDiag) data
            ⟨"conformal_thinning", alphaLevels, dateCol, cvMethod⟩ rfl h3
        · cases h

/-- Witness for C10 at a concrete lasso fit with forced thinning mode. -/
theorem regress_thinning_accepts_all_methods_witness :
    ("lasso" = "ols" ∨ "lasso" = "ridge" ∨ "lasso" = "lasso" ∨
      "lasso" = "robust" ∨ "lasso" = "quantile") ∧
    regressE lstsqZeroStub shuffleIdStub (!![(1:ℚ)]) ![0] [] "gaussian"
        "lasso" none (some "conformal_thinning") none (1/2) [1/10] []
      ≠ .error (.valueError "hat_diag required for thinning") :=
  ⟨Or.inr (Or.inr (Or.inl rfl)),
    (regress_thinning_accepts_all_methods lstsqZeroStub shuffleIdStub
      (!![(1:ℚ)]) ![0] [] "gaussian" none none (1/2) [1/10] [] "lasso"
      (Or.inr (Or.inr (Or.inl rfl)))).2⟩
